import Mathlib

/-!
# json-browser: a heap model of `browser.go`

`JSONBrowser` is a pointer-receiver type holding one `any`-typed field `node`.
The operations alias Go maps, slices and wrapper pointers, so the embedding
keeps an explicit heap:

* `arrays`   : the backing arrays of `[]any` slices (a slice value is a header
  `(array, offset, len, cap)` into one of them),
* `maps`     : the `map[string]any` objects (an association list each),
* `wrappers` : the allocated `JSONBrowser` structs, each just its `node`.

Address `0` of `wrappers` is the package variable `NullBrowser`.
An address that is not allocated plays the role of Go's typed `nil`
(nil map: reads give the zero value, a write panics; nil pointer: a
dereference panics).  A run-time panic is the outer `none` of a result.

What the Go runtime and the libraries leave open is a parameter of the
operation that meets it, and the theorems hold for every value of it: `g` is the
capacity `append` chooses when it reallocates, `ord` the order in which `range`
visits a map, `marshal` the encoder `json.Marshal`, `frac` the rendering of a
`float64` that is not a small integer.  `int` has 64 bits.
-/

namespace JsonBrowser

abbrev Addr := Nat

/-- A `float64`: the finite value `(-1)^neg * m * 2^e`, an infinity or NaN. -/
inductive F64 where
  | fin (neg : Bool) (m : Nat) (e : Int)
  | inf (neg : Bool)
  | nan
  deriving DecidableEq, Repr

/-- The dynamic values an `any` can hold, as far as `browser.go` tells them apart. -/
inductive Val where
  | nil
  | bool (b : Bool)
  | float64 (f : F64)
  | int (i : Int)
  | int64 (i : Int)
  | string (s : String)
  | number (s : String)
  | slice (arr : Addr) (off len cap : Nat)
  | map (m : Addr)
  | browser (p : Addr)
  | other (tag : Nat)
  deriving DecidableEq, Repr

structure Heap where
  arrays : List (List Val)
  maps : List (List (String × Val))
  wrappers : List Val
  deriving DecidableEq, Repr

/-- The package variable `var NullBrowser = &JSONBrowser{node: nil}`. -/
def NullBrowser : Addr := 0

/-- The heap after package initialisation: only `NullBrowser` is allocated. -/
def Heap.init : Heap := ⟨[], [], [Val.nil]⟩

/-- The field read `jb.node`; `none` is the nil-pointer dereference. -/
def Heap.node (h : Heap) (jb : Addr) : Option Val := h.wrappers[jb]?

/-- The backing array at an address (empty when nothing is allocated there). -/
def Heap.array (h : Heap) (a : Addr) : List Val := h.arrays.getD a []

/-- The read `arr[i]` of cell `i` of a backing array; `none` is out of the array. -/
def Heap.load (h : Heap) (a : Addr) (i : Nat) : Option Val := (h.array a)[i]?

/-- The cells `[p, p+n)` of a backing array, as read by `copy`. -/
def Heap.loadMany (h : Heap) (a : Addr) (p n : Nat) : Option (List Val) :=
  if p + n ≤ (h.array a).length then some (((h.array a).drop p).take n) else none

/-- The write of `vs` over the cells `[p, p + |vs|)` of a backing array. -/
def Heap.storeMany (h : Heap) (a : Addr) (p : Nat) (vs : List Val) : Option Heap :=
  if p + vs.length ≤ (h.array a).length then
    let xs := (h.array a).take p ++ vs ++ (h.array a).drop (p + vs.length)
    some { h with arrays := List.set h.arrays a xs }
  else none

/-- The built-in `append(s, vs...)` for `s = (a, off, len, cap)`: in place when the
capacity suffices, else into a fresh array.  The capacity of the fresh array is
at least the needed length; beyond that it is the runtime's choice `g oldCap needed`. -/
def append (g : Nat → Nat → Nat) (h : Heap) (a : Addr) (off len cap : Nat) (vs : List Val) :
    Option (Heap × Val) :=
  if len + vs.length ≤ cap then
    (h.storeMany a (off + len) vs).map fun h1 => (h1, Val.slice a off (len + vs.length) cap)
  else
    (h.loadMany a off len).map fun old =>
      let n := len + vs.length
      let newcap := max n (g cap n)
      ({ h with arrays := h.arrays ++ [old ++ vs ++ List.replicate (newcap - n) Val.nil] },
        Val.slice h.arrays.length 0 n newcap)

/-- The read `m[key]` of a Go map: the zero value `nil` when the key is absent. -/
def mapIndex (kv : List (String × Val)) (key : String) : Val := (kv.lookup key).getD Val.nil

/-- The built-in `delete(m, key)` on the entries of a map. -/
def mapDelete (kv : List (String × Val)) (key : String) : List (String × Val) :=
  kv.filter fun p => p.1 != key

/-- The assignment `m[key] = v` on the entries of a map. -/
def mapAssign (kv : List (String × Val)) (key : String) (v : Val) : List (String × Val) :=
  (key, v) :: mapDelete kv key

def NewJSONBrowser (h : Heap) (node : Val) : Heap × Addr :=
  if node = Val.nil then (h, NullBrowser)
  else ({ h with wrappers := h.wrappers ++ [node] }, h.wrappers.length)

def IsList (h : Heap) (jb : Addr) : Option Bool :=
  (h.node jb).map fun n => match n with
    | Val.slice _ _ _ _ => true
    | _ => false

def IsMap (h : Heap) (jb : Addr) : Option Bool :=
  (h.node jb).map fun n => match n with
    | Val.map _ => true
    | _ => false

def Index (h : Heap) (jb : Addr) (i : Int) : Option (Heap × Addr) :=
  match h.node jb with
  | none => none
  | some (Val.slice a off len _) =>
    if 0 ≤ i ∧ i < len then (h.load a (off + i.toNat)).map (NewJSONBrowser h)
    else some (h, NullBrowser)
  | some _ => some (h, NullBrowser)

def Get (h : Heap) (jb : Addr) (key : String) : Option (Heap × Addr) :=
  match h.node jb with
  | none => none
  | some (Val.map m) => some (NewJSONBrowser h (mapIndex (h.maps.getD m []) key))
  | some _ => some (h, NullBrowser)

/-- The shared `if browser, ok := value.(*JSONBrowser); ok { browser.node } else { value }`. -/
def unwrap (h : Heap) (value : Val) : Option Val :=
  match value with
  | Val.browser p => h.node p
  | v => some v

/-- The statement `m[key] = v`; `none` is the panic of an assignment into a nil map. -/
def Heap.mapStore (h : Heap) (m : Addr) (key : String) (v : Val) : Option Heap :=
  match h.maps[m]? with
  | none => none
  | some kv => some { h with maps := List.set h.maps m (mapAssign kv key v) }

def Put (h : Heap) (jb : Addr) (key : String) (value : Val) : Option (Heap × Option String) :=
  match h.node jb with
  | none => none
  | some (Val.map m) =>
    (unwrap h value).bind fun v => (h.mapStore m key v).map fun h1 => (h1, none)
  | some _ => some (h, some "put only works on maps")

def Remove (h : Heap) (jb : Addr) (key : String) : Option (Heap × Option String) :=
  match h.node jb with
  | none => none
  | some (Val.map m) =>
    some ({ h with maps := List.set h.maps m (mapDelete (h.maps.getD m []) key) }, none)
  | some _ => some (h, some "remove only works on maps")

def Add (g : Nat → Nat → Nat) (h : Heap) (jb : Addr) (value : Val) :
    Option (Heap × Option String) :=
  match h.node jb with
  | none => none
  | some (Val.slice a off len cap) =>
    (unwrap h value).bind fun v =>
      (append g h a off len cap [v]).map fun r =>
        ({ r.1 with wrappers := List.set r.1.wrappers jb r.2 }, none)
  | some _ => some (h, some "add only works on lists")

def Set (h : Heap) (jb : Addr) (index : Int) (value : Val) : Option (Heap × Option String) :=
  match h.node jb with
  | none => none
  | some (Val.slice a off len _) =>
    if index < 0 ∨ index ≥ len then some (h, some "index out of bounds")
    else
      (unwrap h value).bind fun v =>
        (h.storeMany a (off + index.toNat) [v]).map fun h1 => (h1, none)
  | some _ => some (h, some "set only works on lists")

def RemoveAt (g : Nat → Nat → Nat) (h : Heap) (jb : Addr) (index : Int) :
    Option (Heap × Option String) :=
  match h.node jb with
  | none => none
  | some (Val.slice a off len cap) =>
    if index < 0 ∨ index ≥ len then some (h, some "index out of bounds")
    else
      (h.loadMany a (off + (index.toNat + 1)) (len - (index.toNat + 1))).bind fun tl =>
        (append g h a off index.toNat cap tl).map fun r =>
          ({ r.1 with wrappers := List.set r.1.wrappers jb r.2 }, none)
  | some _ => some (h, some "removeAt only works on lists")

def Keys (h : Heap) (jb : Addr) : Option (List String) :=
  (h.node jb).map fun n => match n with
    | Val.map m => (h.maps.getD m []).map Prod.fst
    | _ => []

def IsNull (h : Heap) (jb : Addr) : Option Bool :=
  (h.node jb).map fun n => n == Val.nil || jb == NullBrowser

/-- Modelled from the spec: `strconv` is not part of the repository.  The digits of
Go's `strconv.ParseUint(s, 10, 64)`, before the range check: at least one character,
each of them a decimal digit. -/
def parseDigits (cs : List Char) : Option Nat :=
  if cs.isEmpty then none
  else cs.foldl
    (fun acc c => acc.bind fun n => if c.isDigit then some (10 * n + (c.toNat - 48)) else none)
    (some 0)

/-- Modelled from the spec: `strconv` is not part of the repository ("attempts to parse
Text as an integer").  Go's `strconv.ParseInt(s, 10, 64)`, and `strconv.Atoi` where
`int` has 64 bits: an optional sign, decimal digits, and a value within the signed
64-bit range; `none` is a non-nil `err`. -/
def ParseInt (s : String) : Option Int :=
  let r : Bool × List Char := match s.toList with
    | '+' :: ds => (false, ds)
    | '-' :: ds => (true, ds)
    | ds => (false, ds)
  match parseDigits r.2 with
  | none => none
  | some n =>
    if r.1 then (if n ≤ 2 ^ 63 then some (-(n : Int)) else none)
    else (if n < 2 ^ 63 then some (n : Int) else none)

/-- The conversion `int64(v)` of a `float64`: the fraction is discarded; a value
the result type cannot hold (and an infinity or NaN) converts to an
implementation-dependent result, here the `-2^63` of amd64. -/
def f64ToInt64 : F64 → Int
  | F64.fin neg m e =>
    let t : Int := if 0 ≤ e then (m : Int) * 2 ^ e.toNat else (m : Int) / 2 ^ (-e).toNat
    let v : Int := if neg then -t else t
    if -(2 : Int) ^ 63 ≤ v ∧ v < (2 : Int) ^ 63 then v else -(2 : Int) ^ 63
  | _ => -(2 : Int) ^ 63

/-- The method `AsLong`; the leading `jb.node == nil` test is the first case. -/
def AsLong (h : Heap) (jb : Addr) (defaultValue : Int) : Option Int :=
  (h.node jb).map fun n => match n with
    | Val.nil => defaultValue
    | Val.float64 v => f64ToInt64 v
    | Val.int v => v
    | Val.int64 v => v
    | Val.string v => (ParseInt v).getD defaultValue
    | _ => defaultValue

/-- The method `AsInt`, where `int` has 64 bits, so that `int(v)` of an `int64` is `v`
and `strconv.Atoi` agrees with `strconv.ParseInt(s, 10, 64)`. -/
def AsInt (h : Heap) (jb : Addr) (defaultValue : Int) : Option Int :=
  (h.node jb).map fun n => match n with
    | Val.nil => defaultValue
    | Val.float64 v => f64ToInt64 v
    | Val.int v => v
    | Val.int64 v => v
    | Val.string v => (ParseInt v).getD defaultValue
    | _ => defaultValue

/-- The growth of `append` in the Go runtime for short slices: double the old
capacity unless more is needed. -/
def goGrow (oldCap needed : Nat) : Nat := if 2 * oldCap < needed then needed else 2 * oldCap

/-- The heap after `ParseJsonString` of the text `\x7b"a":[1,2,3],"b":"x"\x7d`:
`json.Unmarshal` decodes the array by appending to `make([]any, 0)` (so three
`float64` elements in a backing array of capacity 4), the object to a map, and
`NewJSONBrowser` allocates the root wrapper, at address 1. -/
def scenarioHeap : Heap :=
  { arrays := [[Val.float64 (F64.fin false 1 0), Val.float64 (F64.fin false 2 0),
      Val.float64 (F64.fin false 3 0), Val.nil]],
    maps := [[("a", Val.slice 0 0 3 4), ("b", Val.string "x")]],
    wrappers := [Val.nil, Val.map 0] }

/-- The statements `root.Get("a").Add(4)` and then `root.Get("a").Index(3).AsInt(0)`
of the scenario, for a root wrapper at `root`: the value of the final `AsInt`. -/
def scenarioAddThenIndex (g : Nat → Nat → Nat) (h : Heap) (root : Addr) : Option Int :=
  (Get h root "a").bind fun r1 =>
  (Add g r1.1 r1.2 (Val.int 4)).bind fun r2 =>
  (Get r2.1 root "a").bind fun r3 =>
  (Index r3.1 r3.2 3).bind fun r4 =>
  AsInt r4.1 r4.2 0

/-- The statements `root.Get("a").RemoveAt(0)` and then `root.Get("a").Index(j).AsInt(0)`
of a caller holding the root wrapper at `root`: the value of the final `AsInt`. -/
def scenarioRemoveAtThenIndex (g : Nat → Nat → Nat) (h : Heap) (root : Addr) (j : Int) :
    Option Int :=
  (Get h root "a").bind fun r1 =>
  (RemoveAt g r1.1 r1.2 0).bind fun r2 =>
  (Get r2.1 root "a").bind fun r3 =>
  (Index r3.1 r3.2 j).bind fun r4 =>
  AsInt r4.1 r4.2 0

/-- The statements `root.Get(k).Add(v)` and then `root.Get(k).Index(n)`: the wrapper
the final `Index` returns, with the heap it returns it in. -/
def addThenIndex (g : Nat → Nat → Nat) (h : Heap) (root : Addr) (k : String) (v : Val)
    (n : Int) : Option (Heap × Addr) :=
  (Get h root k).bind fun r1 =>
  (Add g r1.1 r1.2 v).bind fun r2 =>
  (Get r2.1 root k).bind fun r3 =>
  Index r3.1 r3.2 n

/-- The contents of the slice `(a, off, len, _)`: the cells `off .. off+len-1` of its array. -/
def Heap.elems (h : Heap) (a : Addr) (off len : Nat) : List Val :=
  ((h.array a).drop off).take len

/-- Memory safety of a value: a slice header stays within its backing array. -/
def Heap.okVal (h : Heap) (v : Val) : Prop :=
  match v with
  | Val.slice a off len cap => len ≤ cap ∧ off + cap ≤ (h.array a).length
  | _ => True

/-- The invariant of the reachable heaps: `NullBrowser` is allocated with a nil
node, and every slice header stored in a wrapper, a backing array or a map stays
within its backing array. -/
def Heap.WF (h : Heap) : Prop :=
  h.node NullBrowser = some Val.nil ∧
  (∀ v ∈ h.wrappers, h.okVal v) ∧
  (∀ xs ∈ h.arrays, ∀ v ∈ xs, h.okVal v) ∧
  (∀ kv ∈ h.maps, ∀ p ∈ kv, h.okVal p.2)

/-- The node of the wrapper a navigation call returned, in the heap it returned. -/
def wrapped (r : Option (Heap × Addr)) : Option Val := r.bind fun p => p.1.node p.2

/-- The heap of `scenarioHeap` after `root.Get("a")` allocated its wrapper, at address 2. -/
def scenarioListHeap : Heap := (NewJSONBrowser scenarioHeap (Val.slice 0 0 3 4)).1

/-- The heap after `ParseJsonString` of the text `\x7b"o":\x7b"x":1\x7d,"a":[1,2,3]\x7d`,
with the root wrapper at address 1: the root map at map address 0, the inner map at 1. -/
def nestedHeap : Heap :=
  { arrays := [[Val.float64 (F64.fin false 1 0), Val.float64 (F64.fin false 2 0),
      Val.float64 (F64.fin false 3 0), Val.nil]],
    maps := [[("o", Val.map 1), ("a", Val.slice 0 0 3 4)],
      [("x", Val.float64 (F64.fin false 1 0))]],
    wrappers := [Val.nil, Val.map 0] }

/-- The loop `for _, v := range xs \x7b values = append(values, NewJSONBrowser(v)) \x7d` of
`Values`: the heap after the allocations and the wrappers collected, in order. -/
def wrapAll (h : Heap) : List Val → Heap × List Addr
  | [] => (h, [])
  | v :: vs => ((wrapAll (NewJSONBrowser h v).1 vs).1,
      (NewJSONBrowser h v).2 :: (wrapAll (NewJSONBrowser h v).1 vs).2)

/-- The method `Values`.  The order in which `range` visits the entries of a Go map is
the runtime's choice: `ord` rearranges the entries of the map into that order. -/
def Values (ord : List (String × Val) → List (String × Val)) (h : Heap) (jb : Addr) :
    Option (Heap × List Addr) :=
  match h.node jb with
  | none => none
  | some (Val.slice a off len _) => (h.loadMany a off len).map (wrapAll h)
  | some (Val.map m) => some (wrapAll h ((ord (h.maps.getD m [])).map Prod.snd))
  | some _ => some (h, [])

/-- The constructor `NewEmptyMap`: `make(map[string]any)` allocates an empty map. -/
def NewEmptyMap (h : Heap) : Heap × Addr :=
  NewJSONBrowser { h with maps := h.maps ++ [List.nil] } (Val.map h.maps.length)

/-- The constructor `NewEmptyList`: `make([]any, 0)` is a non-nil slice of length and
capacity 0, here over a fresh empty backing array. -/
def NewEmptyList (h : Heap) : Heap × Addr :=
  NewJSONBrowser { h with arrays := h.arrays ++ [List.nil] } (Val.slice h.arrays.length 0 0 0)

/-- A step of a client of the package that can change the heap.  A call of the API:
the navigation methods allocate wrappers, the mutation methods edit containers, the
constructors `NewJSONBrowser(node)`, `NewEmptyMap()` and `NewEmptyList()` allocate
a wrapper (the remaining methods only read).  Or the client building a container of
its own, which it can then pass as the `value any` of a mutation or the `node any` of
`NewJSONBrowser`: `makeSlice xs` is the composite literal `[]any` of the elements
`xs`, `makeMap kv` a fresh `map[string]any` assigned the entries `kv` in order. -/
inductive Op where
  | index (jb : Addr) (i : Int)
  | get (jb : Addr) (key : String)
  | values (jb : Addr)
  | put (jb : Addr) (key : String) (value : Val)
  | remove (jb : Addr) (key : String)
  | add (jb : Addr) (value : Val)
  | set (jb : Addr) (index : Int) (value : Val)
  | removeAt (jb : Addr) (index : Int)
  | newEmptyMap
  | newEmptyList
  | newJSONBrowser (node : Val)
  | makeSlice (xs : List Val)
  | makeMap (kv : List (String × Val))
  deriving DecidableEq, Repr

/-- The entries of a fresh map after the assignments `m[k] = v` for the entries of
`kv`, in order. -/
def assignAll (kv : List (String × Val)) : List (String × Val) :=
  kv.foldl (fun m p => mapAssign m p.1 p.2) []

/-- The heap after one step; `none` is a panic.  The slice a `makeSlice xs` builds is
`Val.slice h.arrays.length 0 xs.length xs.length`, the map a `makeMap` builds is
`Val.map h.maps.length`, the wrapper a constructor returns is at
`h.wrappers.length` (or is `NullBrowser`). -/
def Op.run (g : Nat → Nat → Nat) (ord : List (String × Val) → List (String × Val))
    (h : Heap) : Op → Option Heap
  | Op.index jb i => (Index h jb i).map Prod.fst
  | Op.get jb key => (Get h jb key).map Prod.fst
  | Op.values jb => (Values ord h jb).map Prod.fst
  | Op.put jb key value => (Put h jb key value).map Prod.fst
  | Op.remove jb key => (Remove h jb key).map Prod.fst
  | Op.add jb value => (Add g h jb value).map Prod.fst
  | Op.set jb i value => (Set h jb i value).map Prod.fst
  | Op.removeAt jb i => (RemoveAt g h jb i).map Prod.fst
  | Op.newEmptyMap => some (NewEmptyMap h).1
  | Op.newEmptyList => some (NewEmptyList h).1
  | Op.newJSONBrowser node => some (NewJSONBrowser h node).1
  | Op.makeSlice xs => some { h with arrays := h.arrays ++ [xs] }
  | Op.makeMap kv => some { h with maps := h.maps ++ [assignAll kv] }

/-- The heap after a sequence of steps, each on the heap the previous one left. -/
def runOps (g : Nat → Nat → Nat) (ord : List (String × Val) → List (String × Val))
    (h : Heap) : List Op → Option Heap
  | [] => some h
  | op :: ops => (op.run g ord h).bind fun h1 => runOps g ord h1 ops

/-- Whether a value is a wrapper, a `*JSONBrowser`. -/
def Val.isBrowser : Val → Bool
  | Val.browser _ => true
  | _ => false

/-- No wrapper is stored anywhere: no cell of a backing array and no entry of a map
is a `*JSONBrowser` (the tree holds raw values only), and no wrapper has a wrapper
for its node (a wrapper is a handle on a raw value). -/
def Heap.noWrapper (h : Heap) : Prop :=
  (∀ v ∈ h.wrappers, v.isBrowser = false) ∧
  (∀ xs ∈ h.arrays, ∀ v ∈ xs, v.isBrowser = false) ∧
  (∀ kv ∈ h.maps, ∀ p ∈ kv, p.2.isBrowser = false)

/-- Whether a step keeps wrappers out of what it builds: `NewJSONBrowser` is not
applied to a wrapper, and a container the client builds holds no wrapper.  Every
other call qualifies, whatever its arguments. -/
def Op.plain : Op → Bool
  | Op.newJSONBrowser node => !node.isBrowser
  | Op.makeSlice xs => xs.all fun v => !v.isBrowser
  | Op.makeMap kv => kv.all fun p => !p.2.isBrowser
  | _ => true

/-- The heap after `root := NewEmptyMap()` and `w := NewJSONBrowser(root)` from the
initial heap: `root` is the wrapper at address 1, over the empty map, and `w` the
wrapper at address 2, whose node is the wrapper `root`. -/
def wrapperOverWrapperHeap : Heap :=
  { arrays := [], maps := [[]], wrappers := [Val.nil, Val.map 0, Val.browser 1] }

/-- The heap after `root := NewEmptyMap()` and `xs := []any\x7broot\x7d` from the initial
heap: the slice the client built is `Val.slice 0 0 1 1`, its one cell holds the
wrapper `root`. -/
def callerSliceHeap : Heap :=
  { arrays := [[Val.browser 1]], maps := [[]], wrappers := [Val.nil, Val.map 0] }

/-- The heap of the scenario after `w := root.Get("a")`, `root.Put("self", root)` and
`w.Add(root)`: the root map is stored under `"self"` and in the cell the `append`
wrote, the wrapper `w` at address 2 has the longer slice. -/
def scenarioSelfHeap : Heap :=
  { arrays := [[Val.float64 (F64.fin false 1 0), Val.float64 (F64.fin false 2 0),
      Val.float64 (F64.fin false 3 0), Val.map 0]],
    maps := [[("self", Val.map 0), ("a", Val.slice 0 0 3 4), ("b", Val.string "x")]],
    wrappers := [Val.nil, Val.map 0, Val.slice 0 0 4 4] }

/-- The heap of `scenarioSelfHeap` after `root.Get("self").Put("self", 7)`: the wrapper
`Get` allocated is at address 3, the entry `"self"` of the root map holds `7`. -/
def selfPutHeap : Heap :=
  { arrays := [[Val.float64 (F64.fin false 1 0), Val.float64 (F64.fin false 2 0),
      Val.float64 (F64.fin false 3 0), Val.map 0]],
    maps := [[("self", Val.int 7), ("a", Val.slice 0 0 3 4), ("b", Val.string "x")]],
    wrappers := [Val.nil, Val.map 0, Val.slice 0 0 4 4, Val.map 0] }

/-- The heap after `ParseReader` of the text `42`: with `decoder.UseNumber()` the decoder
yields the number as the `json.Number` (a named string type) `"42"`; the root wrapper
is at address 1. -/
def readerHeap42 : Heap := { arrays := [], maps := [], wrappers := [Val.nil, Val.number "42"] }

/-- The heap after `ParseJsonString` or `ParseJsonBytes` of the text `42`:
`json.Unmarshal` yields the number as the `float64` 42; the root wrapper is at
address 1. -/
def stringHeap42 : Heap :=
  { arrays := [], maps := [], wrappers := [Val.nil, Val.float64 (F64.fin false 42 0)] }

/-- The exact value of a finite `float64`, as a rational number. -/
def F64.toRat : F64 → Option ℚ
  | F64.fin neg m e => some ((if neg then -1 else 1) * (m : ℚ) * (2 : ℚ) ^ e)
  | _ => none

/-- Truncation toward zero of a rational number: the fraction is discarded. -/
def truncToZero (q : ℚ) : Int := if 0 ≤ q then ⌊q⌋ else ⌈q⌉

/-- The heap of a wrapper, at address 1, over the `float64` nearest to `3.9`
(`0x1.f333333333333p+1`) or, with `neg`, to `-3.9`. -/
def floatHeap39 (neg : Bool) : Heap :=
  { arrays := [], maps := [],
    wrappers := [Val.nil, Val.float64 (F64.fin neg 8782019273372467 (-51))] }

/-- The value of a decimal digit character. -/
def digitVal (c : Char) : Nat := c.toNat - 48

/-- A base-10 integer literal, in the words of the specification: an optional sign
followed by decimal digits (at least one); its value is the number the digits
denote, negated after a minus sign.  `none` for any other text. -/
def intLiteral (s : String) : Option Int :=
  let cs := s.toList
  let signed : Bool := cs.head? = some '-' ∨ cs.head? = some '+'
  let ds := if signed then cs.tail else cs
  let n : Nat := Nat.ofDigits 10 (ds.reverse.map digitVal)
  if ds ≠ [] ∧ ds.all Char.isDigit = true then
    some ((if cs.head? = some '-' then -1 else 1) * (n : Int))
  else none

/-- An integer fits the signed 64-bit result type (`int64`, and `int` on a 64-bit
platform). -/
def fitsInt64 (n : Int) : Prop := -(2 : Int) ^ 63 ≤ n ∧ n < (2 : Int) ^ 63

/-- The heap of a wrapper, at address 1, over the Text `s`. -/
def textHeap (s : String) : Heap :=
  { arrays := [], maps := [], wrappers := [Val.nil, Val.string s] }

/-- Modelled from the spec: `strconv` is not part of the repository ("attempts to parse
Text as a boolean").  Go's `strconv.ParseBool`: it accepts `1`, `t`, `T`, `TRUE`,
`true`, `True` and `0`, `f`, `F`, `FALSE`, `false`, `False`; `none` is a non-nil `err`. -/
def ParseBool (s : String) : Option Bool :=
  if s ∈ ["1", "t", "T", "TRUE", "true", "True"] then some true
  else if s ∈ ["0", "f", "F", "FALSE", "false", "False"] then some false
  else none

/-- The method `AsBoolean`; the leading `jb.node == nil` test is the first case. -/
def AsBoolean (h : Heap) (jb : Addr) (defaultValue : Bool) : Option Bool :=
  (h.node jb).map fun n => match n with
    | Val.nil => defaultValue
    | Val.bool v => v
    | Val.string v => (ParseBool v).getD defaultValue
    | _ => defaultValue

/-- Modelled from the spec: `strconv` is not part of the repository.  Go's
`strconv.FormatBool`: "a canonical boolean rendering". -/
def FormatBool (b : Bool) : String := if b then "true" else "false"

/-- Modelled from the spec: `strconv` is not part of the repository.  Go's
`strconv.Itoa(v)` and `strconv.FormatInt(v, 10)`: the decimal digits of `v`, after a
minus sign when `v` is negative. -/
def Itoa (v : Int) : String := toString v

/-- The value of a finite `float64` when that value is an integer. -/
def F64.toInt? : F64 → Option Int
  | F64.fin neg m e =>
    if 0 ≤ e then some ((if neg then -1 else 1) * ((m * 2 ^ e.toNat : Nat) : Int))
    else if 2 ^ (-e).toNat ∣ m then
      some ((if neg then -1 else 1) * ((m / 2 ^ (-e).toNat : Nat) : Int))
    else none
  | _ => none

/-- Modelled from the spec: `strconv` is not part of the repository.  Go's
`strconv.FormatFloat(v, 'f', -1, 64)`, as far as the specification speaks of it: a
zero is `0` or `-0`, an integer of magnitude below `2^53` is rendered by its decimal
digits; how any other value is rendered (fraction digits, shortest round trip, `NaN`,
`+Inf`) is left to `frac`. -/
def FormatFloat (frac : F64 → String) (v : F64) : String :=
  match v with
  | F64.fin neg 0 _ => if neg then "-0" else "0"
  | _ =>
    match v.toInt? with
    | some z => if z.natAbs < 2 ^ 53 then Itoa z else frac v
    | none => frac v

/-- The method `Text`: the inner `none` is the nil `*string`.  `marshal` stands for
`json.Marshal`, of the external encoder (its `none` is a non-nil `err`), and `frac`
for the part of `strconv.FormatFloat` left open. -/
def Text (marshal : Heap → Val → Option String) (frac : F64 → String) (h : Heap)
    (jb : Addr) : Option (Option String) :=
  (h.node jb).map fun n => match n with
    | Val.nil => none
    | Val.string v => some v
    | Val.bool v => some (FormatBool v)
    | Val.float64 v => some (FormatFloat frac v)
    | Val.int v => some (Itoa v)
    | Val.int64 v => some (Itoa v)
    | v => marshal h v

def TextOrDefault (marshal : Heap → Val → Option String) (frac : F64 → String) (h : Heap)
    (jb : Addr) (deafult : String) : Option String :=
  (Text marshal frac h jb).map fun text => match text with
    | none => deafult
    | some t => t

def SafeText (marshal : Heap → Val → Option String) (frac : F64 → String) (h : Heap)
    (jb : Addr) : Option String :=
  TextOrDefault marshal frac h jb ""

/-- The node kinds that reach the `default:` case of `Text`, where the rendering is
that of `json.Marshal`: Sequence, Mapping, `json.Number`, and any other Go value. -/
def Val.marshalled : Val → Bool
  | Val.slice _ _ _ _ => true
  | Val.map _ => true
  | Val.number _ => true
  | Val.browser _ => true
  | Val.other _ => true
  | _ => false

/-- One step of a navigation chain: `.Get(key)` or `.Index(i)`. -/
inductive Step where
  | key (k : String)
  | idx (i : Int)
  deriving DecidableEq, Repr

/-- A navigation chain such as `jb.Get("a").Get("b").Index(2)`: each call is made on
the wrapper the previous one returned. -/
def navigate (h : Heap) (jb : Addr) : List Step → Option (Heap × Addr)
  | [] => some (h, jb)
  | Step.key k :: rest => (Get h jb k).bind fun r => navigate r.1 r.2 rest
  | Step.idx i :: rest => (Index h jb i).bind fun r => navigate r.1 r.2 rest

/-! # Theorems

## Reading and writing backing arrays -/

theorem elems_getElem? (h : Heap) (a off len j : Nat) :
    (h.elems a off len)[j]? = if j < len then h.load a (off + j) else none := by
  simp only [Heap.elems, Heap.load, List.getElem?_take, List.getElem?_drop]

theorem storeMany_array (h h1 : Heap) (a p : Nat) (vs : List Val)
    (hs : h.storeMany a p vs = some h1) :
    h1.array a = (h.array a).take p ++ vs ++ (h.array a).drop (p + vs.length) := by
  unfold Heap.storeMany at hs
  split at hs
  · next hle =>
    simp only [Option.some.injEq] at hs
    subst hs
    by_cases ha : a < h.arrays.length
    · simp [Heap.array, List.getD_eq_getElem?_getD, List.getElem?_set, ha]
    · have h0 : h.array a = [] := by
        simp [Heap.array, List.getD_eq_getElem?_getD, List.getElem?_eq_none (Nat.le_of_not_lt ha)]
      rw [h0] at hle
      simp only [List.length_nil, Nat.le_zero_eq, Nat.add_eq_zero_iff, List.length_eq_zero] at hle
      simp [Heap.array, List.getD_eq_getElem?_getD, List.getElem?_set, ha, hle.2,
        List.getElem?_eq_none (Nat.le_of_not_lt ha)]
  · simp at hs

theorem storeMany_array_ne (h h1 : Heap) (a b p : Nat) (vs : List Val)
    (hs : h.storeMany a p vs = some h1) (hb : b ≠ a) : h1.array b = h.array b := by
  unfold Heap.storeMany at hs
  split at hs
  · simp only [Option.some.injEq] at hs
    subst hs
    simp [Heap.array, List.getD_eq_getElem?_getD, List.getElem?_set, Ne.symm hb]
  · simp at hs

theorem storeMany_frame (h h1 : Heap) (a p : Nat) (vs : List Val)
    (hs : h.storeMany a p vs = some h1) : h1.wrappers = h.wrappers ∧ h1.maps = h.maps := by
  unfold Heap.storeMany at hs
  split at hs
  · simp only [Option.some.injEq] at hs
    subst hs
    exact ⟨rfl, rfl⟩
  · simp at hs

theorem storeMany_load (h h1 : Heap) (a p q : Nat) (vs : List Val)
    (hs : h.storeMany a p vs = some h1) :
    h1.load a q = if p ≤ q ∧ q < p + vs.length then vs[q - p]? else h.load a q := by
  have hle : p + vs.length ≤ (h.array a).length := by
    unfold Heap.storeMany at hs
    split at hs
    · assumption
    · simp at hs
  simp only [Heap.load, storeMany_array h h1 a p vs hs]
  by_cases h1 : q < p
  · have : ¬ (p ≤ q ∧ q < p + vs.length) := by omega
    rw [if_neg this, List.append_assoc, List.getElem?_append_left (by simp; omega)]
    simp [List.getElem?_take, h1]
  · by_cases h2 : q < p + vs.length
    · rw [if_pos ⟨by omega, h2⟩, List.append_assoc,
        List.getElem?_append_right (by simp; omega), List.getElem?_append_left (by simp; omega)]
      simp
      congr 1
      omega
    · have : ¬ (p ≤ q ∧ q < p + vs.length) := by omega
      rw [if_neg this, List.getElem?_append_right (by simp; omega)]
      simp [List.getElem?_drop]
      congr 1
      omega

theorem elems_length (h : Heap) (a off len cap : Nat)
    (hok : h.okVal (Val.slice a off len cap)) : (h.elems a off len).length = len := by
  simp only [Heap.okVal] at hok
  simp only [Heap.elems, List.length_take, List.length_drop]
  omega

theorem loadMany_eq_elems (h : Heap) (a p n : Nat) (hle : p + n ≤ (h.array a).length) :
    h.loadMany a p n = some (h.elems a p n) := by
  simp [Heap.loadMany, Heap.elems, hle]

theorem elems_take (h : Heap) (a off len i : Nat) (hi : i ≤ len) :
    h.elems a off i = (h.elems a off len).take i := by
  simp [Heap.elems, List.take_take, Nat.min_eq_left hi]

theorem elems_drop (h : Heap) (a off len k : Nat) :
    h.elems a (off + k) (len - k) = (h.elems a off len).drop k := by
  simp [Heap.elems, List.drop_take, List.drop_drop]

theorem storeMany_isSome (h : Heap) (a p : Nat) (vs : List Val)
    (hle : p + vs.length ≤ (h.array a).length) : ∃ h1, h.storeMany a p vs = some h1 := by
  simp [Heap.storeMany, hle]

theorem storeMany_elems_append (h h1 : Heap) (a off len : Nat) (vs : List Val)
    (hs : h.storeMany a (off + len) vs = some h1) :
    h1.elems a off (len + vs.length) = h.elems a off len ++ vs := by
  have hle : off + len + vs.length ≤ (h.array a).length := by
    unfold Heap.storeMany at hs
    split at hs
    · assumption
    · simp at hs
  apply List.ext_getElem?
  intro j
  rw [elems_getElem?, storeMany_load h h1 a (off + len) (off + j) vs hs]
  by_cases hj : j < len
  · have h1 : ¬ (off + len ≤ off + j ∧ off + j < off + len + vs.length) := by omega
    have h2 : j < (h.elems a off len).length := by
      simp only [Heap.elems, List.length_take, List.length_drop]; omega
    rw [if_neg h1, if_pos (by omega), List.getElem?_append_left h2, elems_getElem?, if_pos hj]
  · have h2 : (h.elems a off len).length = len := by
      simp only [Heap.elems, List.length_take, List.length_drop]; omega
    rw [List.getElem?_append_right (by omega), h2]
    by_cases hj2 : j < len + vs.length
    · rw [if_pos hj2, if_pos (by omega)]
      congr 1
      omega
    · rw [if_neg hj2]
      symm
      apply List.getElem?_eq_none
      omega

theorem append_spec (g : Nat → Nat → Nat) (h : Heap) (a off len cap : Nat) (vs : List Val)
    (hok : h.okVal (Val.slice a off len cap)) :
    ∃ h1 a1 off1 cap1,
      append g h a off len cap vs = some (h1, Val.slice a1 off1 (len + vs.length) cap1) ∧
      h1.okVal (Val.slice a1 off1 (len + vs.length) cap1) ∧
      h1.elems a1 off1 (len + vs.length) = h.elems a off len ++ vs ∧
      h1.wrappers = h.wrappers ∧ h1.maps = h.maps := by
  have hok' := hok
  simp only [Heap.okVal] at hok
  by_cases hfit : len + vs.length ≤ cap
  · obtain ⟨h1, hst⟩ := storeMany_isSome h a (off + len) vs (by omega)
    refine ⟨h1, a, off, cap, by simp [append, hfit, hst], ?_,
      storeMany_elems_append h h1 a off len vs hst,
      (storeMany_frame h h1 _ _ _ hst).1, (storeMany_frame h h1 _ _ _ hst).2⟩
    have := storeMany_array _ _ _ _ _ hst
    simp only [Heap.okVal, this]
    simp
    omega
  · have hld := loadMany_eq_elems h a off len (by omega)
    have hl := elems_length h a off len cap hok'
    have hap : append g h a off len cap vs = some
        (Heap.mk (h.arrays ++ [h.elems a off len ++ vs ++
            List.replicate (max (len + vs.length) (g cap (len + vs.length)) - (len + vs.length))
              Val.nil]) h.maps h.wrappers,
          Val.slice h.arrays.length 0 (len + vs.length)
            (max (len + vs.length) (g cap (len + vs.length)))) := by
      simp only [append, hfit, if_false, hld, Option.map_some']
    generalize hpad :
      max (len + vs.length) (g cap (len + vs.length)) - (len + vs.length) = pad at hap
    generalize hes : h.elems a off len = es at hap hl
    refine ⟨_, _, _, _, hap, ?_, ?_, rfl, rfl⟩
    · simp only [Heap.okVal, Heap.array, List.getD_eq_getElem?_getD,
        List.getElem?_concat_length, Option.getD_some, List.length_append,
        List.length_replicate, hl]
      omega
    · have e1 : (Heap.mk (h.arrays ++ [es ++ vs ++ List.replicate pad Val.nil]) h.maps
          h.wrappers).array h.arrays.length = es ++ vs ++ List.replicate pad Val.nil := by
        simp [Heap.array]
      unfold Heap.elems
      rw [e1, List.drop_zero, List.take_append_of_le_length (by simp [hl]),
        List.take_of_length_le (by simp [hl])]

/-! ## Navigation -/

theorem node_NewJSONBrowser (h : Heap) (e : Val) (hnull : h.node NullBrowser = some Val.nil) :
    (NewJSONBrowser h e).1.node (NewJSONBrowser h e).2 = some e := by
  unfold NewJSONBrowser
  split
  · next he => simpa [he] using hnull
  · simp [Heap.node]

/-- C2: on a wrapper over a Sequence of length `N`, `Index(i)` with `0 <= i < N` is
`NewJSONBrowser` of the `i`-th element, a wrapper whose node is that element; with
`i < 0` or `i >= N` it is the `NullBrowser` singleton; on a wrapper whose node is not a
Sequence it is the singleton for every `i`; and `Index` always returns. -/
theorem C2_Index (h : Heap) (w : Addr) (n : Val) (i : Int)
    (hnull : h.node NullBrowser = some Val.nil) (hw : h.node w = some n) (hok : h.okVal n) :
    (∀ a off N cap, n = Val.slice a off N cap →
      (0 ≤ i ∧ i < N → ∃ e, (h.elems a off N)[i.toNat]? = some e ∧
        Index h w i = some (NewJSONBrowser h e) ∧ wrapped (Index h w i) = some e) ∧
      (i < 0 ∨ (N : Int) ≤ i → Index h w i = some (h, NullBrowser))) ∧
    ((∀ a off N cap, n ≠ Val.slice a off N cap) → Index h w i = some (h, NullBrowser)) ∧
    (Index h w i).isSome = true := by
  refine ⟨?_, ?_, ?_⟩
  · rintro a off N cap rfl
    constructor
    · rintro ⟨h0, hN⟩
      have hj : i.toNat < N := by omega
      have hlen := elems_length h a off N cap hok
      have hlt : i.toNat < (h.elems a off N).length := by omega
      have hld := elems_getElem? h a off N i.toNat
      rw [if_pos hj, List.getElem?_eq_getElem hlt] at hld
      have hidx : Index h w i = some (NewJSONBrowser h (h.elems a off N)[i.toNat]) := by
        simp [Index, hw, h0, hN, ← hld]
      refine ⟨(h.elems a off N)[i.toNat], List.getElem?_eq_getElem hlt, hidx, ?_⟩
      rw [hidx]
      exact node_NewJSONBrowser h _ hnull
    · intro hout
      have : ¬ (0 ≤ i ∧ i < (N : Int)) := by omega
      simp [Index, hw, this]
  · intro hns
    cases n <;> simp [Index, hw]
    exact absurd rfl (hns _ _ _ _)
  · cases n <;> simp [Index, hw]
    rename_i a off N cap
    split
    · next hin =>
      have hj : i.toNat < N := by omega
      have hlen := elems_length h a off N cap hok
      have hld := elems_getElem? h a off N i.toNat
      rw [if_pos hj, List.getElem?_eq_getElem (by omega)] at hld
      simp [← hld]
    · simp

/-- C2 on the list `[1, 2, 3]` of the scenario: index 1 wraps `2`, the indices 3 and
-1 give the singleton. -/
theorem C2_Index_witness :
    scenarioListHeap.node NullBrowser = some Val.nil ∧
    scenarioListHeap.node 2 = some (Val.slice 0 0 3 4) ∧
    scenarioListHeap.okVal (Val.slice 0 0 3 4) ∧
    wrapped (Index scenarioListHeap 2 1) = some (Val.float64 (F64.fin false 2 0)) ∧
    Index scenarioListHeap 2 3 = some (scenarioListHeap, NullBrowser) ∧
    Index scenarioListHeap 2 (-1) = some (scenarioListHeap, NullBrowser) := by
  have hC := C2_Index scenarioListHeap 2 (Val.slice 0 0 3 4)
  have h1 := ((hC 1 (by decide) (by decide) ⟨by decide, by decide⟩).1 0 0 3 4 rfl).1
    ⟨by decide, by decide⟩
  have h3 := ((hC 3 (by decide) (by decide) ⟨by decide, by decide⟩).1 0 0 3 4 rfl).2
    (Or.inr (by decide))
  have hm := ((hC (-1) (by decide) (by decide) ⟨by decide, by decide⟩).1 0 0 3 4 rfl).2
    (Or.inl (by decide))
  obtain ⟨e, he, _, hwr⟩ := h1
  have : e = Val.float64 (F64.fin false 2 0) := by
    have h2 : (scenarioListHeap.elems 0 0 3)[(1 : Int).toNat]? =
        some (Val.float64 (F64.fin false 2 0)) := by
      decide
    rw [h2] at he
    exact (Option.some.inj he).symm
  exact ⟨by decide, by decide, ⟨by decide, by decide⟩, this ▸ hwr, h3, hm⟩

/-- C3: on a wrapper over a Mapping that contains `key`, `Get(key)` is `NewJSONBrowser`
of the stored value, a wrapper whose node is that value; on a Mapping without `key`
(a nil map included) and on a node that is not a Mapping it is the `NullBrowser`
singleton; and `Get` always returns. -/
theorem C3_Get (h : Heap) (w : Addr) (n : Val) (key : String)
    (hnull : h.node NullBrowser = some Val.nil) (hw : h.node w = some n) :
    (∀ m v, n = Val.map m → (h.maps.getD m []).lookup key = some v →
      Get h w key = some (NewJSONBrowser h v) ∧ wrapped (Get h w key) = some v) ∧
    (∀ m, n = Val.map m → (h.maps.getD m []).lookup key = none →
      Get h w key = some (h, NullBrowser)) ∧
    ((∀ m, n ≠ Val.map m) → Get h w key = some (h, NullBrowser)) ∧
    (Get h w key).isSome = true := by
  refine ⟨?_, ?_, ?_, ?_⟩
  · rintro m v rfl hk
    have hg : Get h w key = some (NewJSONBrowser h v) := by
      simp only [Get, hw, mapIndex, hk, Option.getD_some]
    refine ⟨hg, ?_⟩
    rw [hg]
    exact node_NewJSONBrowser h v hnull
  · rintro m rfl hk
    simp only [Get, hw, mapIndex, hk, Option.getD_none, NewJSONBrowser, if_true]
  · intro hnm
    cases n <;> simp [Get, hw]
    exact absurd rfl (hnm _)
  · cases n <;> simp [Get, hw]

/-- C3 on the root of the scenario: `Get("b")` wraps `"x"`, `Get("c")` is the singleton. -/
theorem C3_Get_witness :
    scenarioHeap.node NullBrowser = some Val.nil ∧ scenarioHeap.node 1 = some (Val.map 0) ∧
    wrapped (Get scenarioHeap 1 "b") = some (Val.string "x") ∧
    Get scenarioHeap 1 "c" = some (scenarioHeap, NullBrowser) :=
  have hC := fun key => C3_Get scenarioHeap 1 (Val.map 0) key (by decide) (by decide)
  ⟨by decide, by decide, ((hC "b").1 0 (Val.string "x") rfl (by decide)).2,
    (hC "c").2.1 0 rfl (by decide)⟩

/-! ## Failing mutations -/

/-- C6: on a wrapper over a Sequence of length `N`, `Set(i, v)` and `RemoveAt(i)` with
`i < 0` or `i >= N` return the error "index out of bounds" and the heap as it was (so
the length and every element are unchanged); that error is not the one either
operation returns on a node that is not a Sequence. -/
theorem C6_index_out_of_bounds (g : Nat → Nat → Nat) (h : Heap) (w a off N cap : Nat)
    (i : Int) (v : Val) (hw : h.node w = some (Val.slice a off N cap))
    (hi : i < 0 ∨ (N : Int) ≤ i) :
    Set h w i v = some (h, some "index out of bounds") ∧
    RemoveAt g h w i = some (h, some "index out of bounds") ∧
    (∀ w1 n1, h.node w1 = some n1 → (∀ a1 off1 N1 cap1, n1 ≠ Val.slice a1 off1 N1 cap1) →
      Set h w1 i v = some (h, some "set only works on lists") ∧
      RemoveAt g h w1 i = some (h, some "removeAt only works on lists")) ∧
    "index out of bounds" ≠ "set only works on lists" ∧
    "index out of bounds" ≠ "removeAt only works on lists" := by
  have hge : i < 0 ∨ i ≥ (N : Int) := hi
  refine ⟨by simp [Set, hw, hge], by simp [RemoveAt, hw, hge], ?_, by decide, by decide⟩
  intro w1 n1 hw1 hns
  cases n1 <;> simp [Set, RemoveAt, hw1]
  exact absurd rfl (hns _ _ _ _)

/-- C6 on the list of the scenario, at the indices 3 and -1. -/
theorem C6_index_out_of_bounds_witness :
    scenarioListHeap.node 2 = some (Val.slice 0 0 3 4) ∧
    Set scenarioListHeap 2 3 (Val.int 9) = some (scenarioListHeap, some "index out of bounds") ∧
    RemoveAt goGrow scenarioListHeap 2 (-1) =
      some (scenarioListHeap, some "index out of bounds") :=
  ⟨by decide,
    (C6_index_out_of_bounds goGrow scenarioListHeap 2 0 0 3 4 3 (Val.int 9) (by decide)
      (Or.inr (by decide))).1,
    (C6_index_out_of_bounds goGrow scenarioListHeap 2 0 0 3 4 (-1) (Val.int 9) (by decide)
      (Or.inl (by decide))).2.1⟩

/-- C7: a mutation returns an error exactly on a shape mismatch and then returns the
heap as it was: `Put` and `Remove` return an error if and only if the node is not a
Mapping, `Add` if and only if the node is not a Sequence, and `Set` and `RemoveAt`
return their shape error on every node that is not a Sequence, whatever the index. -/
theorem C7_shape_mismatch (g : Nat → Nat → Nat) (h : Heap) (w : Addr) (n : Val)
    (hw : h.node w = some n) :
    (∀ k v, ((∃ h1 e, Put h w k v = some (h1, some e)) ↔ ∀ m, n ≠ Val.map m) ∧
      ((∀ m, n ≠ Val.map m) → Put h w k v = some (h, some "put only works on maps"))) ∧
    (∀ k, ((∃ h1 e, Remove h w k = some (h1, some e)) ↔ ∀ m, n ≠ Val.map m) ∧
      ((∀ m, n ≠ Val.map m) → Remove h w k = some (h, some "remove only works on maps"))) ∧
    (∀ v, ((∃ h1 e, Add g h w v = some (h1, some e)) ↔
        ∀ a off len cap, n ≠ Val.slice a off len cap) ∧
      ((∀ a off len cap, n ≠ Val.slice a off len cap) →
        Add g h w v = some (h, some "add only works on lists"))) ∧
    (∀ i v, (∀ a off len cap, n ≠ Val.slice a off len cap) →
      Set h w i v = some (h, some "set only works on lists")) ∧
    (∀ i, (∀ a off len cap, n ≠ Val.slice a off len cap) →
      RemoveAt g h w i = some (h, some "removeAt only works on lists")) := by
  have hput : ∀ k v, (∀ m, n ≠ Val.map m) →
      Put h w k v = some (h, some "put only works on maps") := by
    intro k v hnm
    cases n <;> simp [Put, hw]
    exact absurd rfl (hnm _)
  have hrem : ∀ k, (∀ m, n ≠ Val.map m) →
      Remove h w k = some (h, some "remove only works on maps") := by
    intro k hnm
    cases n <;> simp [Remove, hw]
    exact absurd rfl (hnm _)
  have hadd : ∀ v, (∀ a off len cap, n ≠ Val.slice a off len cap) →
      Add g h w v = some (h, some "add only works on lists") := by
    intro v hns
    cases n <;> simp [Add, hw]
    exact absurd rfl (hns _ _ _ _)
  refine ⟨fun k v => ⟨⟨?_, fun hnm => ⟨h, _, hput k v hnm⟩⟩, hput k v⟩,
    fun k => ⟨⟨?_, fun hnm => ⟨h, _, hrem k hnm⟩⟩, hrem k⟩,
    fun v => ⟨⟨?_, fun hns => ⟨h, _, hadd v hns⟩⟩, hadd v⟩, ?_, ?_⟩
  · rintro ⟨h1, e, he⟩ m rfl
    simp only [Put, hw, Option.bind_eq_some, Option.map_eq_some'] at he
    obtain ⟨_, _, _, _, hpair⟩ := he
    simp at hpair
  · rintro ⟨h1, e, he⟩ m rfl
    simp [Remove, hw] at he
  · rintro ⟨h1, e, he⟩ a off len cap rfl
    simp only [Add, hw, Option.bind_eq_some, Option.map_eq_some'] at he
    obtain ⟨_, _, _, _, hpair⟩ := he
    simp at hpair
  · intro i v hns
    cases n <;> simp [Set, hw]
    exact absurd rfl (hns _ _ _ _)
  · intro i hns
    cases n <;> simp [RemoveAt, hw]
    exact absurd rfl (hns _ _ _ _)

/-- C7 on the list of the scenario: `Put` and `Remove` fail on it and change nothing. -/
theorem C7_shape_mismatch_witness :
    scenarioListHeap.node 2 = some (Val.slice 0 0 3 4) ∧
    Put scenarioListHeap 2 "k" (Val.int 1) =
      some (scenarioListHeap, some "put only works on maps") ∧
    Remove scenarioListHeap 2 "k" = some (scenarioListHeap, some "remove only works on maps") :=
  have hC := C7_shape_mismatch goGrow scenarioListHeap 2 (Val.slice 0 0 3 4) (by decide)
  ⟨by decide, (hC.1 "k" (Val.int 1)).2 (fun _ hm => nomatch hm),
    (hC.2.1 "k").2 (fun _ hm => nomatch hm)⟩

/-! ## Mutating a Sequence -/

theorem node_lt (h : Heap) (w : Addr) (n : Val) (hw : h.node w = some n) :
    w < h.wrappers.length := by
  unfold Heap.node at hw
  by_contra hlt
  rw [List.getElem?_eq_none (Nat.le_of_not_lt hlt)] at hw
  cases hw

theorem wrapped_Index (h : Heap) (w a off N cap : Nat) (j : Int)
    (hnull : h.node NullBrowser = some Val.nil) (hw : h.node w = some (Val.slice a off N cap))
    (hok : h.okVal (Val.slice a off N cap)) :
    wrapped (Index h w j) =
      if 0 ≤ j ∧ j < N then (h.elems a off N)[j.toNat]? else some Val.nil := by
  by_cases hj : 0 ≤ j ∧ j < (N : Int)
  · have hlt : j.toNat < N := by omega
    have hlen := elems_length h a off N cap hok
    have hld := elems_getElem? h a off N j.toNat
    rw [if_pos hlt, List.getElem?_eq_getElem (by omega)] at hld
    rw [if_pos hj, List.getElem?_eq_getElem (by omega)]
    simp only [Index, hw, if_pos hj, ← hld, Option.map_some', wrapped, Option.some_bind]
    exact node_NewJSONBrowser h _ hnull
  · simp only [Index, hw, if_neg hj, wrapped, Option.some_bind]
    exact hnull

/-- C4: on a wrapper over a Sequence of length `N`, `Add(v)` returns no error, and
afterwards the wrapper's own node is a Sequence of length `N+1` holding the old
elements followed by `v` (by the node of `v` when `v` is a wrapper): index `N`
holds the new value and the indices below `N` hold what they held. -/
theorem C4_Add (g : Nat → Nat → Nat) (h : Heap) (w a off N cap : Nat) (v u : Val)
    (hw : h.node w = some (Val.slice a off N cap)) (hok : h.okVal (Val.slice a off N cap))
    (hv : unwrap h v = some u) :
    ∃ h1 a1 off1 cap1, Add g h w v = some (h1, none) ∧
      h1.node w = some (Val.slice a1 off1 (N + 1) cap1) ∧
      h1.okVal (Val.slice a1 off1 (N + 1) cap1) ∧
      h1.elems a1 off1 (N + 1) = h.elems a off N ++ [u] ∧
      (h1.elems a1 off1 (N + 1))[N]? = some u ∧
      ∀ j, j < N → (h1.elems a1 off1 (N + 1))[j]? = (h.elems a off N)[j]? := by
  obtain ⟨h2, a1, off1, cap1, hap, hok2, hel, hwr, _⟩ := append_spec g h a off N cap [u] hok
  have hlen := elems_length h a off N cap hok
  have hwlt := node_lt h w _ hw
  refine ⟨{ h2 with wrappers := List.set h2.wrappers w (Val.slice a1 off1 (N + 1) cap1) },
    a1, off1, cap1, ?_, ?_, hok2, hel, ?_, ?_⟩
  · simp only [Add, hw, hv, Option.some_bind, hap, Option.map_some']
    rfl
  · simp [Heap.node, hwr, hwlt]
  · show (h2.elems a1 off1 (N + 1))[N]? = some u
    have hel1 : h2.elems a1 off1 (N + 1) = h.elems a off N ++ [u] := hel
    rw [hel1, List.getElem?_append_right (by omega), hlen]
    simp
  · intro j hj
    show (h2.elems a1 off1 (N + 1))[j]? = _
    have hel1 : h2.elems a1 off1 (N + 1) = h.elems a off N ++ [u] := hel
    rw [hel1, List.getElem?_append_left (by omega)]

/-- C4 on the list of the scenario: after `Add(4)` index 3 of the wrapper holds `4`. -/
theorem C4_Add_witness :
    scenarioListHeap.node 2 = some (Val.slice 0 0 3 4) ∧
    scenarioListHeap.okVal (Val.slice 0 0 3 4) ∧
    unwrap scenarioListHeap (Val.int 4) = some (Val.int 4) ∧
    ∃ h1 a1 off1 cap1, Add goGrow scenarioListHeap 2 (Val.int 4) = some (h1, none) ∧
      h1.node 2 = some (Val.slice a1 off1 (3 + 1) cap1) ∧
      (h1.elems a1 off1 (3 + 1))[3]? = some (Val.int 4) := by
  obtain ⟨h1, a1, off1, cap1, hadd, hnode, _, _, hlast, _⟩ :=
    C4_Add goGrow scenarioListHeap 2 0 0 3 4 (Val.int 4) (Val.int 4) (by decide)
      ⟨by decide, by decide⟩ rfl
  exact ⟨by decide, ⟨by decide, by decide⟩, rfl, h1, a1, off1, cap1, hadd, hnode, hlast⟩

/-- C5: on a wrapper over a Sequence `s` of length `N`, `RemoveAt(i)` with
`0 <= i < N` returns no error, and afterwards the wrapper's node is a Sequence of
length `N-1` that is `s` without its `i`-th element: every index `j < i` holds
`s[j]` and every index `j >= i` holds `s[j+1]`. -/
theorem C5_RemoveAt (g : Nat → Nat → Nat) (h : Heap) (w a off N cap : Nat) (i : Int)
    (hw : h.node w = some (Val.slice a off N cap)) (hok : h.okVal (Val.slice a off N cap))
    (hi : 0 ≤ i ∧ i < N) :
    ∃ h1 a1 off1 cap1, RemoveAt g h w i = some (h1, none) ∧
      h1.node w = some (Val.slice a1 off1 (N - 1) cap1) ∧
      h1.okVal (Val.slice a1 off1 (N - 1) cap1) ∧
      h1.elems a1 off1 (N - 1) = (h.elems a off N).eraseIdx i.toNat ∧
      (∀ j, j < i.toNat → (h1.elems a1 off1 (N - 1))[j]? = (h.elems a off N)[j]?) ∧
      ∀ j, i.toNat ≤ j → (h1.elems a1 off1 (N - 1))[j]? = (h.elems a off N)[j + 1]? := by
  have hok0 := hok
  simp only [Heap.okVal] at hok0
  have hk : i.toNat < N := by omega
  have hge : ¬ (i < 0 ∨ i ≥ (N : Int)) := by omega
  have hwlt := node_lt h w _ hw
  have hlen := elems_length h a off N cap hok
  have htl : h.loadMany a (off + (i.toNat + 1)) (N - (i.toNat + 1)) =
      some (h.elems a (off + (i.toNat + 1)) (N - (i.toNat + 1))) :=
    loadMany_eq_elems h a _ _ (by omega)
  have htl2 := elems_drop h a off N (i.toNat + 1)
  have htk := elems_take h a off N i.toNat (by omega)
  have hokp : h.okVal (Val.slice a off i.toNat cap) := by
    simp only [Heap.okVal]; omega
  obtain ⟨h2, a1, off1, cap1, hap, hok2, hel, hwr, _⟩ :=
    append_spec g h a off i.toNat cap (h.elems a (off + (i.toNat + 1)) (N - (i.toNat + 1))) hokp
  have hlen2 : i.toNat + (h.elems a (off + (i.toNat + 1)) (N - (i.toNat + 1))).length = N - 1 := by
    rw [htl2, List.length_drop, hlen]; omega
  rw [hlen2] at hap hok2 hel
  rw [htk, htl2, ← List.eraseIdx_eq_take_drop_succ] at hel
  have hel1 : (Heap.mk h2.arrays h2.maps
      (List.set h2.wrappers w (Val.slice a1 off1 (N - 1) cap1))).elems a1 off1 (N - 1) =
      (h.elems a off N).eraseIdx i.toNat := hel
  refine ⟨{ h2 with wrappers := List.set h2.wrappers w (Val.slice a1 off1 (N - 1) cap1) },
    a1, off1, cap1, ?_, ?_, hok2, hel1, ?_, ?_⟩
  · simp only [RemoveAt, hw, if_neg hge, htl, Option.some_bind, hap, Option.map_some']
  · simp [Heap.node, hwr, hwlt]
  · intro j hj
    rw [hel1, List.getElem?_eraseIdx, if_pos hj]
  · intro j hj
    rw [hel1, List.getElem?_eraseIdx, if_neg (by omega)]

/-- C5 on the list of the scenario: `RemoveAt(0)` leaves the list without its head. -/
theorem C5_RemoveAt_witness :
    scenarioListHeap.node 2 = some (Val.slice 0 0 3 4) ∧
    scenarioListHeap.okVal (Val.slice 0 0 3 4) ∧
    ∃ h1 a1 off1 cap1, RemoveAt goGrow scenarioListHeap 2 0 = some (h1, none) ∧
      h1.node 2 = some (Val.slice a1 off1 (3 - 1) cap1) ∧
      h1.elems a1 off1 (3 - 1) = (scenarioListHeap.elems 0 0 3).eraseIdx (0 : Int).toNat := by
  obtain ⟨h1, a1, off1, cap1, hrm, hnode, _, hel, _⟩ :=
    C5_RemoveAt goGrow scenarioListHeap 2 0 0 3 4 0 (by decide) ⟨by decide, by decide⟩
      ⟨by decide, by decide⟩
  exact ⟨by decide, ⟨by decide, by decide⟩, h1, a1, off1, cap1, hrm, hnode, hel⟩

theorem storeMany_elems_set (h h1 : Heap) (a off len k : Nat) (u : Val) (hk : k < len)
    (hs : h.storeMany a (off + k) [u] = some h1) :
    h1.elems a off len = (h.elems a off len).set k u := by
  have hle : off + k + 1 ≤ (h.array a).length := by
    unfold Heap.storeMany at hs
    split at hs
    · assumption
    · simp at hs
  apply List.ext_getElem?
  intro j
  rw [elems_getElem?, storeMany_load h h1 a (off + k) (off + j) [u] hs, List.getElem?_set,
    elems_getElem?]
  have hlen : (h.elems a off len).length = min len ((h.array a).length - off) := by
    simp [Heap.elems]
  by_cases hjk : k = j
  · subst hjk
    have h1 : off + k ≤ off + k ∧ off + k < off + k + [u].length := by simp
    have h2 : k < (h.elems a off len).length := by omega
    simp [hk, h2]
  · have h1 : ¬ (off + k ≤ off + j ∧ off + j < off + k + [u].length) := by
      simp only [List.length_singleton]; omega
    rw [if_neg h1, if_neg hjk]

/-- C10: on a wrapper over a Sequence of length `N`, `Set(i, v)` with `0 <= i < N`
returns no error, and afterwards the wrapper's node is the same Sequence header (so
the length is still `N`), `Index(i)` wraps `v` (the node of `v` when `v` is a
wrapper), and for every `j` other than `i`, `Index(j)` wraps what it wrapped. -/
theorem C10_Set (h : Heap) (w a off N cap : Nat) (i : Int) (v u : Val)
    (hnull : h.node NullBrowser = some Val.nil)
    (hw : h.node w = some (Val.slice a off N cap)) (hok : h.okVal (Val.slice a off N cap))
    (hi : 0 ≤ i ∧ i < N) (hv : unwrap h v = some u) :
    ∃ h1, Set h w i v = some (h1, none) ∧
      h1.node w = some (Val.slice a off N cap) ∧
      h1.okVal (Val.slice a off N cap) ∧
      h1.elems a off N = (h.elems a off N).set i.toNat u ∧
      wrapped (Index h1 w i) = some u ∧
      ∀ j, j ≠ i → wrapped (Index h1 w j) = wrapped (Index h w j) := by
  have hok0 := hok
  simp only [Heap.okVal] at hok0
  have hk : i.toNat < N := by omega
  have hge : ¬ (i < 0 ∨ i ≥ (N : Int)) := by omega
  have hlen := elems_length h a off N cap hok
  obtain ⟨h1, hst⟩ := storeMany_isSome h a (off + i.toNat) [u] (by simp; omega)
  have hfr := storeMany_frame h h1 _ _ _ hst
  have harr := storeMany_array h h1 _ _ _ hst
  have hel := storeMany_elems_set h h1 a off N i.toNat u hk hst
  have hw1 : h1.node w = some (Val.slice a off N cap) := by
    simpa [Heap.node, hfr.1] using hw
  have hnull1 : h1.node NullBrowser = some Val.nil := by
    simpa [Heap.node, hfr.1] using hnull
  have hok1 : h1.okVal (Val.slice a off N cap) := by
    simp only [Heap.okVal, harr]
    simp
    omega
  refine ⟨h1, ?_, hw1, hok1, hel, ?_, ?_⟩
  · simp only [Set, hw, if_neg hge, hv, Option.some_bind, hst, Option.map_some']
  · rw [wrapped_Index h1 w a off N cap i hnull1 hw1 hok1, if_pos hi, hel,
      List.getElem?_set_self (by omega)]
  · intro j hj
    rw [wrapped_Index h1 w a off N cap j hnull1 hw1 hok1,
      wrapped_Index h w a off N cap j hnull hw hok, hel]
    split
    · next hjr => rw [List.getElem?_set_ne (by omega)]
    · rfl

/-- C10 on the list of the scenario, storing the root wrapper at index 1: the index
then wraps the root's node, the map, and index 0 wraps what it did. -/
theorem C10_Set_witness :
    scenarioListHeap.node NullBrowser = some Val.nil ∧
    scenarioListHeap.node 2 = some (Val.slice 0 0 3 4) ∧
    scenarioListHeap.okVal (Val.slice 0 0 3 4) ∧
    unwrap scenarioListHeap (Val.browser 1) = some (Val.map 0) ∧
    ∃ h1, Set scenarioListHeap 2 1 (Val.browser 1) = some (h1, none) ∧
      wrapped (Index h1 2 1) = some (Val.map 0) ∧
      wrapped (Index h1 2 0) = wrapped (Index scenarioListHeap 2 0) := by
  obtain ⟨h1, hset, _, _, _, hidx, hrest⟩ :=
    C10_Set scenarioListHeap 2 0 0 3 4 1 (Val.browser 1) (Val.map 0) (by decide) (by decide)
      ⟨by decide, by decide⟩ ⟨by decide, by decide⟩ (by decide)
  exact ⟨by decide, by decide, ⟨by decide, by decide⟩, by decide, h1, hset, hidx,
    hrest 0 (by decide)⟩

/-! ## Mutating a Mapping -/

theorem lookup_mapDelete_self (kv : List (String × Val)) (k : String) :
    (mapDelete kv k).lookup k = none := by
  induction kv with
  | nil => rfl
  | cons p kv ih =>
    obtain ⟨k1, v1⟩ := p
    by_cases hk : k1 = k
    · simpa [mapDelete, List.filter_cons, hk] using ih
    · have hne : (k == k1) = false := by simpa using Ne.symm hk
      simp only [mapDelete, List.filter_cons, bne_iff_ne, ne_eq, hk, not_false_eq_true,
        decide_True, if_true, List.lookup_cons, hne]
      exact ih

theorem lookup_mapDelete_ne (kv : List (String × Val)) (k j : String) (hj : j ≠ k) :
    (mapDelete kv k).lookup j = kv.lookup j := by
  induction kv with
  | nil => rfl
  | cons p kv ih =>
    obtain ⟨k1, v1⟩ := p
    by_cases hk : k1 = k
    · have hne : (j == k1) = false := by simpa [hk] using hj
      simp only [List.lookup_cons, hne]
      simpa [mapDelete, List.filter_cons, hk] using ih
    · simp only [mapDelete, List.filter_cons, bne_iff_ne, ne_eq, hk, not_false_eq_true,
        decide_True, if_true, List.lookup_cons]
      split
      · rfl
      · exact ih

theorem mapDelete_absent (kv : List (String × Val)) (k : String) (hk : kv.lookup k = none) :
    mapDelete kv k = kv := by
  induction kv with
  | nil => rfl
  | cons p kv ih =>
    obtain ⟨k1, v1⟩ := p
    by_cases hkk : k = k1
    · simp [List.lookup_cons, hkk] at hk
    · have hne : (k == k1) = false := by simpa using hkk
      simp only [List.lookup_cons, hne] at hk
      have := ih hk
      simp only [mapDelete] at this
      simp [mapDelete, List.filter_cons, Ne.symm hkk, this]

theorem mapIndex_mapAssign_self (kv : List (String × Val)) (k : String) (v : Val) :
    mapIndex (mapAssign kv k v) k = v := by
  simp [mapIndex, mapAssign, List.lookup_cons]

theorem mapIndex_mapAssign_ne (kv : List (String × Val)) (k j : String) (v : Val)
    (hj : j ≠ k) : mapIndex (mapAssign kv k v) j = mapIndex kv j := by
  have hne : (j == k) = false := by simpa using hj
  simp [mapIndex, mapAssign, List.lookup_cons, hne, lookup_mapDelete_ne kv k j hj]

theorem wrapped_Get (h : Heap) (w m : Nat) (key : String)
    (hnull : h.node NullBrowser = some Val.nil) (hw : h.node w = some (Val.map m)) :
    wrapped (Get h w key) = some (mapIndex (h.maps.getD m []) key) := by
  simp only [Get, hw, wrapped, Option.some_bind]
  exact node_NewJSONBrowser h _ hnull

/-- C8: on a wrapper over a Mapping, `Put(k, v)` returns no error whether or not `k`
was present, and afterwards `Get(k)` wraps `v` (the node of `v` when `v` is a
wrapper) while for every key `j` other than `k`, `Get(j)` wraps what it wrapped. -/
theorem C8_Put (h : Heap) (w m : Nat) (kv : List (String × Val)) (k : String) (v u : Val)
    (hnull : h.node NullBrowser = some Val.nil) (hw : h.node w = some (Val.map m))
    (hm : h.maps[m]? = some kv) (hv : unwrap h v = some u) :
    ∃ h1, Put h w k v = some (h1, none) ∧
      h1.node w = some (Val.map m) ∧
      wrapped (Get h1 w k) = some u ∧
      ∀ j, j ≠ k → wrapped (Get h1 w j) = wrapped (Get h w j) := by
  have hmlt : m < h.maps.length := by
    by_contra hlt
    rw [List.getElem?_eq_none (Nat.le_of_not_lt hlt)] at hm
    cases hm
  have hget : h.maps.getD m [] = kv := by simp [List.getD_eq_getElem?_getD, hm]
  have hget1 : (List.set h.maps m (mapAssign kv k u)).getD m [] = mapAssign kv k u := by
    simp [List.getD_eq_getElem?_getD, List.getElem?_set, hmlt]
  let h1 : Heap := { h with maps := List.set h.maps m (mapAssign kv k u) }
  have hw1 : h1.node w = some (Val.map m) := hw
  have hnull1 : h1.node NullBrowser = some Val.nil := hnull
  have hmaps1 : h1.maps.getD m [] = mapAssign kv k u := hget1
  refine ⟨h1, ?_, hw1, ?_, ?_⟩
  · simp only [Put, hw, hv, Option.some_bind, Heap.mapStore, hm, Option.map_some', h1]
  · rw [wrapped_Get h1 w m k hnull1 hw1, hmaps1, mapIndex_mapAssign_self]
  · intro j hj
    rw [wrapped_Get h1 w m j hnull1 hw1, wrapped_Get h w m j hnull hw, hmaps1, hget,
      mapIndex_mapAssign_ne kv k j u hj]

/-- C8 on the root of the scenario: `Put("b", 7)` overwrites `"b"` and leaves `"a"`. -/
theorem C8_Put_witness :
    scenarioHeap.node NullBrowser = some Val.nil ∧
    scenarioHeap.node 1 = some (Val.map 0) ∧
    scenarioHeap.maps[0]? = some [("a", Val.slice 0 0 3 4), ("b", Val.string "x")] ∧
    ∃ h1, Put scenarioHeap 1 "b" (Val.int 7) = some (h1, none) ∧
      wrapped (Get h1 1 "b") = some (Val.int 7) ∧
      wrapped (Get h1 1 "a") = wrapped (Get scenarioHeap 1 "a") := by
  obtain ⟨h1, hput, _, hk, hrest⟩ :=
    C8_Put scenarioHeap 1 0 [("a", Val.slice 0 0 3 4), ("b", Val.string "x")] "b" (Val.int 7)
      (Val.int 7) (by decide) (by decide) (by decide) rfl
  exact ⟨by decide, by decide, by decide, h1, hput, hk, hrest "a" (by decide)⟩

/-- C9: on a wrapper over a Mapping, `Remove(k)` returns no error, also when `k` is
absent, in which case the heap is unchanged; afterwards `Get(k).IsNull()` is true,
`k` is not among `Keys()`, and for every key `j` other than `k`, `Get(j)` wraps what
it wrapped. -/
theorem C9_Remove (h : Heap) (w m : Nat) (k : String)
    (hnull : h.node NullBrowser = some Val.nil) (hw : h.node w = some (Val.map m)) :
    ∃ h1, Remove h w k = some (h1, none) ∧
      h1.node w = some (Val.map m) ∧
      ((h.maps.getD m []).lookup k = none → h1 = h) ∧
      (Get h1 w k).bind (fun r => IsNull r.1 r.2) = some true ∧
      (∃ ks, Keys h1 w = some ks ∧ k ∉ ks) ∧
      ∀ j, j ≠ k → wrapped (Get h1 w j) = wrapped (Get h w j) := by
  have hget1 : (List.set h.maps m (mapDelete (h.maps.getD m []) k)).getD m [] =
      mapDelete (h.maps.getD m []) k := by
    by_cases hmlt : m < h.maps.length
    · simp [List.getD_eq_getElem?_getD, List.getElem?_set, hmlt]
    · simp [List.getD_eq_getElem?_getD, List.getElem?_eq_none (Nat.le_of_not_lt hmlt),
        mapDelete, List.getElem?_set, hmlt]
  let h1 : Heap := { h with maps := List.set h.maps m (mapDelete (h.maps.getD m []) k) }
  have hw1 : h1.node w = some (Val.map m) := hw
  have hnull1 : h1.node NullBrowser = some Val.nil := hnull
  have hmaps1 : h1.maps.getD m [] = mapDelete (h.maps.getD m []) k := hget1
  refine ⟨h1, ?_, hw1, ?_, ?_, ?_, ?_⟩
  · simp only [Remove, hw, h1]
  · intro habs
    have : List.set h.maps m (h.maps.getD m []) = h.maps := by
      apply List.ext_getElem?
      intro q
      rw [List.getElem?_set]
      split
      · next hq =>
        subst hq
        split
        · next hlt => simp [List.getD_eq_getElem?_getD, List.getElem?_eq_getElem hlt]
        · next hlt => exact (List.getElem?_eq_none (Nat.le_of_not_lt hlt)).symm
      · rfl
    show Heap.mk h.arrays (List.set h.maps m (mapDelete (h.maps.getD m []) k)) h.wrappers = h
    rw [mapDelete_absent _ k habs, this]
  · simp only [Get, hw1, Option.some_bind, hmaps1, mapIndex, lookup_mapDelete_self,
      Option.getD_none, NewJSONBrowser, if_true, IsNull, hnull1, Option.map_some']
    rfl
  · refine ⟨(mapDelete (h.maps.getD m []) k).map Prod.fst, ?_, ?_⟩
    · simp only [Keys, hw1, Option.map_some', hmaps1]
    · simp [mapDelete]
  · intro j hj
    rw [wrapped_Get h1 w m j hnull1 hw1, wrapped_Get h w m j hnull hw, hmaps1]
    simp only [mapIndex, lookup_mapDelete_ne _ k j hj]

/-- C9 on the root of the scenario: after `Remove("b")`, `Get("b").IsNull()` is true. -/
theorem C9_Remove_witness :
    scenarioHeap.node NullBrowser = some Val.nil ∧
    scenarioHeap.node 1 = some (Val.map 0) ∧
    ∃ h1, Remove scenarioHeap 1 "b" = some (h1, none) ∧
      (Get h1 1 "b").bind (fun r => IsNull r.1 r.2) = some true ∧
      wrapped (Get h1 1 "a") = wrapped (Get scenarioHeap 1 "a") := by
  obtain ⟨h1, hrm, _, _, hk, _, hrest⟩ :=
    C9_Remove scenarioHeap 1 0 "b" (by decide) (by decide)
  exact ⟨by decide, by decide, h1, hrm, hk, hrest "a" (by decide)⟩

/-! ## `Add` through a wrapper obtained by navigation -/

theorem Add_frame (g : Nat → Nat → Nat) (h : Heap) (w a off N cap : Nat) (v u : Val)
    (hw : h.node w = some (Val.slice a off N cap)) (hok : h.okVal (Val.slice a off N cap))
    (hv : unwrap h v = some u) :
    ∃ h1 s, Add g h w v = some (h1, none) ∧ h1.maps = h.maps ∧
      h1.wrappers = List.set h.wrappers w s := by
  obtain ⟨h2, a1, off1, cap1, hap, _, _, hwr, hmp⟩ := append_spec g h a off N cap [u] hok
  refine ⟨{ h2 with wrappers := List.set h2.wrappers w (Val.slice a1 off1 (N + 1) cap1) },
    Val.slice a1 off1 (N + 1) cap1, ?_, hmp, ?_⟩
  · simp only [Add, hw, hv, Option.some_bind, hap, Option.map_some']
    rfl
  · simp [hwr]

/-- What the code does where C1 expects the added value: `Add` reassigns the `node` of
the wrapper `Get` allocated, while the Mapping keeps the slice header of length `n`,
so a later `root.Get(k).Index(n)` is the `NullBrowser` singleton, whatever the
capacity of the slice and the growth policy of `append`. -/
theorem Add_through_Get_is_lost (g : Nat → Nat → Nat) (h : Heap) (root m : Nat)
    (kv : List (String × Val)) (k : String) (a off n cap : Nat) (v u : Val)
    (hroot : h.node root = some (Val.map m)) (hm : h.maps[m]? = some kv)
    (hk : kv.lookup k = some (Val.slice a off n cap))
    (hok : h.okVal (Val.slice a off n cap)) (hv : unwrap h v = some u) :
    ∃ h1, addThenIndex g h root k v n = some (h1, NullBrowser) := by
  have hrlt := node_lt h root _ hroot
  have hget : mapIndex (h.maps.getD m []) k = Val.slice a off n cap := by
    simp [mapIndex, List.getD_eq_getElem?_getD, hm, hk]
  let h1 : Heap := { h with wrappers := h.wrappers ++ [Val.slice a off n cap] }
  have hG1 : Get h root k = some (h1, h.wrappers.length) := by
    simp only [Get, hroot, hget, NewJSONBrowser, reduceCtorEq, if_false, h1]
  have hw1 : h1.node h.wrappers.length = some (Val.slice a off n cap) := by
    simp [Heap.node, h1]
  have hv1 : unwrap h1 v = some u := by
    cases v <;> try exact hv
    rename_i p
    simp only [unwrap] at hv ⊢
    have hp := node_lt h p _ hv
    simpa [Heap.node, h1, List.getElem?_append_left hp] using hv
  obtain ⟨h2, s, hadd, hmaps2, hwr2⟩ :=
    Add_frame g h1 h.wrappers.length a off n cap v u hw1 hok hv1
  have hroot2 : h2.node root = some (Val.map m) := by
    have : root ≠ h.wrappers.length := Nat.ne_of_lt hrlt
    simp only [Heap.node, hwr2, List.getElem?_set_ne (Ne.symm this), h1,
      List.getElem?_append_left hrlt]
    exact hroot
  have hget2 : mapIndex (h2.maps.getD m []) k = Val.slice a off n cap := by
    rw [hmaps2]; exact hget
  let h3 : Heap := { h2 with wrappers := h2.wrappers ++ [Val.slice a off n cap] }
  have hG2 : Get h2 root k = some (h3, h2.wrappers.length) := by
    simp only [Get, hroot2, hget2, NewJSONBrowser, reduceCtorEq, if_false, h3]
  have hw3 : h3.node h2.wrappers.length = some (Val.slice a off n cap) := by
    simp [Heap.node, h3]
  refine ⟨h3, ?_⟩
  simp only [addThenIndex, hG1, Option.some_bind, hadd, hG2, Index, hw3]
  simp

theorem Add_through_Get_is_lost_witness :
    ∃ h1, addThenIndex goGrow scenarioHeap 1 "a" (Val.int 4) (3 : Nat) = some (h1, NullBrowser) :=
  Add_through_Get_is_lost goGrow scenarioHeap 1 0 [("a", Val.slice 0 0 3 4), ("b", Val.string "x")]
    "a" 0 0 3 4 (Val.int 4) (Val.int 4) (by decide) (by decide) (by decide)
    ⟨by decide, by decide⟩ rfl

/-- C1 (the code at the scenario of the spec): on the tree decoded from
`\x7b"a":[1,2,3],"b":"x"\x7d`, `Get("a").Add(4)` followed by
`Get("a").Index(3).AsInt(0)` yields the default `0`, not the `4` the claim states,
both when `append` writes in place (capacity 4, as `json.Unmarshal` leaves it) and
when it has to reallocate (capacity 3). -/
theorem C1_scenario_Add_is_lost :
    scenarioAddThenIndex goGrow scenarioHeap 1 = some 0 ∧
    scenarioAddThenIndex goGrow
      { scenarioHeap with maps := [[("a", Val.slice 0 0 3 3), ("b", Val.string "x")]] } 1
      = some 0 := by
  constructor <;> decide

/-! ## The heap invariant -/

theorem okVal_of_length_le (h h1 : Heap) (v : Val)
    (hle : ∀ a, (h.array a).length ≤ (h1.array a).length) (hv : h.okVal v) : h1.okVal v := by
  cases v <;> try trivial
  rename_i a off len cap
  simp only [Heap.okVal] at hv ⊢
  have := hle a
  omega

theorem mem_array (h : Heap) (a : Addr) (v : Val) (hv : v ∈ h.array a) :
    ∃ xs ∈ h.arrays, v ∈ xs := by
  unfold Heap.array at hv
  rw [List.getD_eq_getElem?_getD] at hv
  cases hx : h.arrays[a]? with
  | none => simp [hx] at hv
  | some xs =>
    rw [hx] at hv
    exact ⟨xs, List.getElem?_mem hx, hv⟩

theorem WF_init : Heap.init.WF := by
  refine ⟨rfl, ?_, ?_, ?_⟩
  · intro v hv
    simp only [Heap.init, List.mem_singleton] at hv
    subst hv
    trivial
  · intro xs hxs
    simp [Heap.init] at hxs
  · intro kv hkv
    simp [Heap.init] at hkv

theorem WF_node (h : Heap) (w : Addr) (n : Val) (hwf : h.WF) (hw : h.node w = some n) :
    h.okVal n :=
  hwf.2.1 n (List.getElem?_mem hw)

theorem WF_unwrap (h : Heap) (v u : Val) (hwf : h.WF) (hv : h.okVal v)
    (hu : unwrap h v = some u) : h.okVal u := by
  cases v <;> simp only [unwrap, Option.some.injEq] at hu <;> try (subst hu; exact hv)
  exact WF_node h _ u hwf hu

theorem WF_elems (h : Heap) (a off len : Nat) (v : Val) (hwf : h.WF)
    (hv : v ∈ h.elems a off len) : h.okVal v := by
  obtain ⟨xs, hxs, hvx⟩ := mem_array h a v (List.mem_of_mem_drop (List.mem_of_mem_take hv))
  exact hwf.2.2.1 xs hxs v hvx

theorem WF_mapIndex (h : Heap) (m : Addr) (key : String) (hwf : h.WF) :
    h.okVal (mapIndex (h.maps.getD m []) key) := by
  unfold mapIndex
  cases hl : (h.maps.getD m []).lookup key with
  | none => trivial
  | some v =>
    rw [List.getD_eq_getElem?_getD] at hl
    cases hx : h.maps[m]? with
    | none => simp [hx] at hl
    | some kv =>
      rw [hx] at hl
      simp only [Option.getD_some] at hl
      have hmem : (key, v) ∈ kv := by
        clear hx
        induction kv with
        | nil => simp at hl
        | cons p kv ih =>
          obtain ⟨k1, v1⟩ := p
          rw [List.lookup_cons] at hl
          split at hl
          · next hk =>
            have hk1 : key = k1 := by simpa using hk
            have hv1 : v1 = v := by simpa using hl
            simp [hk1, hv1]
          · exact List.mem_cons_of_mem _ (ih hl)
      exact hwf.2.2.2 kv (List.getElem?_mem hx) (key, v) hmem

theorem WF_push_wrapper (h : Heap) (n : Val) (hwf : h.WF) (hn : h.okVal n) :
    Heap.WF { h with wrappers := h.wrappers ++ [n] } := by
  obtain ⟨h0, hws, has, hms⟩ := hwf
  refine ⟨?_, ?_, has, hms⟩
  · have hlt := node_lt h _ _ h0
    simp only [Heap.node, List.getElem?_append_left hlt]
    exact h0
  · intro v hv
    rcases List.mem_append.1 hv with hv | hv
    · exact hws v hv
    · simp only [List.mem_singleton] at hv
      subst hv
      exact hn

theorem WF_set_wrapper (h : Heap) (w : Addr) (n s : Val) (hwf : h.WF)
    (hw : h.node w = some n) (hn : n ≠ Val.nil) (hs : h.okVal s) :
    Heap.WF { h with wrappers := List.set h.wrappers w s } := by
  obtain ⟨h0, hws, has, hms⟩ := hwf
  have hne : w ≠ NullBrowser := by
    rintro rfl
    rw [h0] at hw
    exact hn (Option.some.inj hw).symm
  refine ⟨?_, ?_, has, hms⟩
  · simp only [Heap.node, List.getElem?_set_ne hne]
    exact h0
  · intro v hv
    rcases List.mem_or_eq_of_mem_set hv with hv | hv
    · exact hws v hv
    · subst hv
      exact hs

theorem WF_set_map (h : Heap) (m : Addr) (kv : List (String × Val)) (hwf : h.WF)
    (hkv : ∀ p ∈ kv, h.okVal p.2) : Heap.WF { h with maps := List.set h.maps m kv } := by
  obtain ⟨h0, hws, has, hms⟩ := hwf
  refine ⟨h0, hws, has, ?_⟩
  intro kv1 hkv1
  rcases List.mem_or_eq_of_mem_set hkv1 with hmem | hmem
  · exact hms kv1 hmem
  · subst hmem
    exact hkv

theorem WF_storeMany (h h1 : Heap) (a p : Nat) (vs : List Val) (hwf : h.WF)
    (hvs : ∀ v ∈ vs, h.okVal v) (hs : h.storeMany a p vs = some h1) : h1.WF := by
  have hle : p + vs.length ≤ (h.array a).length := by
    unfold Heap.storeMany at hs
    split at hs
    · assumption
    · simp at hs
  have harr := storeMany_array h h1 a p vs hs
  have hlen : ∀ b, (h.array b).length ≤ (h1.array b).length := by
    intro b
    by_cases hb : b = a
    · subst hb
      rw [harr]
      simp
      omega
    · rw [storeMany_array_ne h h1 a b p vs hs hb]
  have hfr := storeMany_frame h h1 a p vs hs
  have hmono := fun v => okVal_of_length_le h h1 v hlen
  obtain ⟨h0, hws, has, hms⟩ := hwf
  refine ⟨?_, ?_, ?_, ?_⟩
  · simpa [Heap.node, hfr.1] using h0
  · intro v hv
    rw [hfr.1] at hv
    exact hmono v (hws v hv)
  · intro xs hxs v hv
    unfold Heap.storeMany at hs
    rw [if_pos hle] at hs
    simp only [Option.some.injEq] at hs
    subst hs
    rcases List.mem_or_eq_of_mem_set hxs with hmem | hmem
    · exact hmono v (has xs hmem v hv)
    · subst hmem
      simp only [List.mem_append] at hv
      rcases hv with (hv | hv) | hv
      · obtain ⟨ys, hys, hvy⟩ := mem_array h a v (List.mem_of_mem_take hv)
        exact hmono v (has ys hys v hvy)
      · exact hmono v (hvs v hv)
      · obtain ⟨ys, hys, hvy⟩ := mem_array h a v (List.mem_of_mem_drop hv)
        exact hmono v (has ys hys v hvy)
  · intro kv hkv q hq
    rw [hfr.2] at hkv
    exact hmono q.2 (hms kv hkv q hq)

theorem WF_alloc (h : Heap) (xs : List Val) (hwf : h.WF) (hxs : ∀ v ∈ xs, h.okVal v) :
    Heap.WF { h with arrays := h.arrays ++ [xs] } := by
  have hlen : ∀ b, (h.array b).length ≤
      (Heap.array { h with arrays := h.arrays ++ [xs] } b).length := by
    intro b
    simp only [Heap.array, List.getD_eq_getElem?_getD]
    by_cases hb : b < h.arrays.length
    · rw [List.getElem?_append_left hb]
    · rw [List.getElem?_eq_none (Nat.le_of_not_lt hb)]
      simp
  have hmono := fun v => okVal_of_length_le h _ v hlen
  obtain ⟨h0, hws, has, hms⟩ := hwf
  refine ⟨h0, fun v hv => hmono v (hws v hv), ?_,
    fun kv hkv q hq => hmono q.2 (hms kv hkv q hq)⟩
  intro ys hys v hv
  rcases List.mem_append.1 hys with hmem | hmem
  · exact hmono v (has ys hmem v hv)
  · simp only [List.mem_singleton] at hmem
    subst hmem
    exact hmono v (hxs v hv)

theorem WF_append (g : Nat → Nat → Nat) (h h1 : Heap) (a off len cap : Nat) (vs : List Val)
    (s : Val) (hwf : h.WF) (hok : h.okVal (Val.slice a off len cap))
    (hvs : ∀ v ∈ vs, h.okVal v) (hap : append g h a off len cap vs = some (h1, s)) :
    h1.WF ∧ h1.okVal s := by
  obtain ⟨h2, a1, off1, cap1, hap2, hok2, _, _, _⟩ := append_spec g h a off len cap vs hok
  rw [hap2] at hap
  simp only [Option.some.injEq, Prod.mk.injEq] at hap
  obtain ⟨rfl, rfl⟩ := hap
  refine ⟨?_, hok2⟩
  unfold append at hap2
  split at hap2
  · simp only [Option.map_eq_some', Prod.mk.injEq] at hap2
    obtain ⟨h3, hst, rfl, _⟩ := hap2
    exact WF_storeMany h h3 a (off + len) vs hwf hvs hst
  · simp only [Option.map_eq_some', Prod.mk.injEq] at hap2
    obtain ⟨old, hold, rfl, _⟩ := hap2
    apply WF_alloc h _ hwf
    intro v hv
    simp only [Heap.loadMany] at hold
    split at hold
    · simp only [Option.some.injEq] at hold
      subst hold
      simp only [List.mem_append, List.mem_replicate] at hv
      rcases hv with (hv | hv) | hv
      · exact WF_elems h a off len v hwf hv
      · exact hvs v hv
      · rw [hv.2]; trivial
    · cases hold


theorem WF_NewJSONBrowser (h : Heap) (n : Val) (hwf : h.WF) (hn : h.okVal n) :
    (NewJSONBrowser h n).1.WF := by
  unfold NewJSONBrowser
  split
  · exact hwf
  · exact WF_push_wrapper h n hwf hn

theorem WF_Index (h : Heap) (w : Addr) (i : Int) (r : Heap × Addr) (hwf : h.WF)
    (hr : Index h w i = some r) : r.1.WF := by
  unfold Index at hr
  split at hr
  · cases hr
  · next a off len cap hw =>
    split at hr
    · next hin =>
      simp only [Option.map_eq_some'] at hr
      obtain ⟨e, he, rfl⟩ := hr
      apply WF_NewJSONBrowser h e hwf
      obtain ⟨xs, hxs, hex⟩ := mem_array h a e (List.getElem?_mem he)
      exact hwf.2.2.1 xs hxs e hex
    · simp only [Option.some.injEq] at hr
      subst hr
      exact hwf
  · simp only [Option.some.injEq] at hr
    subst hr
    exact hwf

theorem WF_Get (h : Heap) (w : Addr) (key : String) (r : Heap × Addr) (hwf : h.WF)
    (hr : Get h w key = some r) : r.1.WF := by
  unfold Get at hr
  split at hr
  · cases hr
  · simp only [Option.some.injEq] at hr
    subst hr
    exact WF_NewJSONBrowser h _ hwf (WF_mapIndex h _ key hwf)
  · simp only [Option.some.injEq] at hr
    subst hr
    exact hwf

theorem WF_Put (h : Heap) (w : Addr) (key : String) (v : Val) (r : Heap × Option String)
    (hwf : h.WF) (hv : h.okVal v) (hr : Put h w key v = some r) : r.1.WF := by
  unfold Put at hr
  split at hr
  · cases hr
  · next m hw =>
    simp only [Option.bind_eq_some, Option.map_eq_some'] at hr
    obtain ⟨u, hu, h1, hst, rfl⟩ := hr
    have hou := WF_unwrap h v u hwf hv hu
    unfold Heap.mapStore at hst
    split at hst
    · cases hst
    · next kv hm =>
      simp only [Option.some.injEq] at hst
      subst hst
      apply WF_set_map h m _ hwf
      intro p hp
      simp only [mapAssign, mapDelete, List.mem_cons, List.mem_filter] at hp
      rcases hp with rfl | ⟨hp, _⟩
      · exact hou
      · exact hwf.2.2.2 kv (List.getElem?_mem hm) p hp
  · simp only [Option.some.injEq] at hr
    subst hr
    exact hwf

theorem WF_Remove (h : Heap) (w : Addr) (key : String) (r : Heap × Option String)
    (hwf : h.WF) (hr : Remove h w key = some r) : r.1.WF := by
  unfold Remove at hr
  split at hr
  · cases hr
  · next m hw =>
    simp only [Option.some.injEq] at hr
    subst hr
    apply WF_set_map h m _ hwf
    intro p hp
    simp only [mapDelete, List.mem_filter] at hp
    rw [List.getD_eq_getElem?_getD] at hp
    cases hm : h.maps[m]? with
    | none => simp [hm] at hp
    | some kv =>
      rw [hm] at hp
      exact hwf.2.2.2 kv (List.getElem?_mem hm) p hp.1
  · simp only [Option.some.injEq] at hr
    subst hr
    exact hwf

theorem WF_Add (g : Nat → Nat → Nat) (h : Heap) (w : Addr) (v : Val)
    (r : Heap × Option String) (hwf : h.WF) (hv : h.okVal v) (hr : Add g h w v = some r) :
    r.1.WF := by
  unfold Add at hr
  split at hr
  · cases hr
  · next a off len cap hw =>
    simp only [Option.bind_eq_some, Option.map_eq_some'] at hr
    obtain ⟨u, hu, ⟨h1, s⟩, hap, rfl⟩ := hr
    have hou := WF_unwrap h v u hwf hv hu
    have hvs : ∀ x ∈ [u], h.okVal x := by
      intro x hx
      simp only [List.mem_singleton] at hx
      subst hx
      exact hou
    obtain ⟨hwf1, hs1⟩ :=
      WF_append g h h1 a off len cap [u] s hwf (WF_node h w _ hwf hw) hvs hap
    have hwr : h1.wrappers = h.wrappers := by
      obtain ⟨h2, _, _, _, hap2, _, _, hwr2, _⟩ :=
        append_spec g h a off len cap [u] (WF_node h w _ hwf hw)
      rw [hap2] at hap
      simp only [Option.some.injEq, Prod.mk.injEq] at hap
      rw [← hap.1]
      exact hwr2
    have hw1 : h1.node w = some (Val.slice a off len cap) := by
      simpa [Heap.node, hwr] using hw
    exact WF_set_wrapper h1 w _ _ hwf1 hw1 (by simp) hs1
  · simp only [Option.some.injEq] at hr
    subst hr
    exact hwf

theorem WF_Set (h : Heap) (w : Addr) (index : Int) (v : Val) (r : Heap × Option String)
    (hwf : h.WF) (hv : h.okVal v) (hr : Set h w index v = some r) : r.1.WF := by
  unfold Set at hr
  split at hr
  · cases hr
  · next a off len cap hw =>
    split at hr
    · simp only [Option.some.injEq] at hr
      subst hr
      exact hwf
    · simp only [Option.bind_eq_some, Option.map_eq_some'] at hr
      obtain ⟨u, hu, h1, hst, rfl⟩ := hr
      have hou := WF_unwrap h v u hwf hv hu
      apply WF_storeMany h h1 a _ [u] hwf _ hst
      intro x hx
      simp only [List.mem_singleton] at hx
      subst hx
      exact hou
  · simp only [Option.some.injEq] at hr
    subst hr
    exact hwf

theorem WF_RemoveAt (g : Nat → Nat → Nat) (h : Heap) (w : Addr) (index : Int)
    (r : Heap × Option String) (hwf : h.WF) (hr : RemoveAt g h w index = some r) :
    r.1.WF := by
  unfold RemoveAt at hr
  split at hr
  · cases hr
  · next a off len cap hw =>
    split at hr
    · simp only [Option.some.injEq] at hr
      subst hr
      exact hwf
    · next hin =>
      simp only [Option.bind_eq_some, Option.map_eq_some'] at hr
      obtain ⟨tl, htl, ⟨h1, s⟩, hap, rfl⟩ := hr
      have hok := WF_node h w _ hwf hw
      have hok0 := hok
      simp only [Heap.okVal] at hok0
      have hokp : h.okVal (Val.slice a off index.toNat cap) := by
        simp only [Heap.okVal]; omega
      have hvs : ∀ x ∈ tl, h.okVal x := by
        intro x hx
        simp only [Heap.loadMany] at htl
        split at htl
        · simp only [Option.some.injEq] at htl
          subst htl
          exact WF_elems h a _ _ x hwf hx
        · cases htl
      obtain ⟨hwf1, hs1⟩ := WF_append g h h1 a off index.toNat cap tl s hwf hokp hvs hap
      have hwr : h1.wrappers = h.wrappers := by
        obtain ⟨h2, _, _, _, hap2, _, _, hwr2, _⟩ :=
          append_spec g h a off index.toNat cap tl hokp
        rw [hap2] at hap
        simp only [Option.some.injEq, Prod.mk.injEq] at hap
        rw [← hap.1]
        exact hwr2
      have hw1 : h1.node w = some (Val.slice a off len cap) := by
        simpa [Heap.node, hwr] using hw
      exact WF_set_wrapper h1 w _ _ hwf1 hw1 (by simp) hs1
  · simp only [Option.some.injEq] at hr
    subst hr
    exact hwf


theorem WF_scenarioHeap : scenarioHeap.WF ∧ scenarioListHeap.WF := by
  have h1 : scenarioHeap.WF := by
    refine ⟨by decide, ?_, ?_, ?_⟩
    · intro v hv
      simp only [scenarioHeap, List.mem_cons, List.mem_singleton, List.not_mem_nil,
        or_false] at hv
      rcases hv with rfl | rfl <;> trivial
    · intro xs hxs v hv
      simp only [scenarioHeap, List.mem_singleton] at hxs
      subst hxs
      simp only [List.mem_cons, List.mem_singleton, List.not_mem_nil, or_false] at hv
      rcases hv with rfl | rfl | rfl | rfl <;> trivial
    · intro kv hkv p hp
      simp only [scenarioHeap, List.mem_singleton] at hkv
      subst hkv
      simp only [List.mem_cons, List.mem_singleton, List.not_mem_nil, or_false] at hp
      rcases hp with rfl | rfl
      · exact ⟨by decide, by decide⟩
      · trivial
  exact ⟨h1, WF_NewJSONBrowser scenarioHeap _ h1 ⟨by decide, by decide⟩⟩

/-- The same slip on `RemoveAt`: through a wrapper obtained by `Get`, `RemoveAt(0)`
shifts the cells of the shared backing array while the Mapping keeps its header of
length 3, so the parent then reads `[2, 3, 3]` where the list was `[1, 2, 3]`. -/
theorem scenario_RemoveAt_through_Get :
    scenarioRemoveAtThenIndex goGrow scenarioHeap 1 0 = some 2 ∧
    scenarioRemoveAtThenIndex goGrow scenarioHeap 1 1 = some 3 ∧
    scenarioRemoveAtThenIndex goGrow scenarioHeap 1 2 = some 3 := by
  refine ⟨?_, ?_, ?_⟩ <;> decide

/-! ## Mutations through a wrapper obtained by navigation -/

theorem NewJSONBrowser_frame (h : Heap) (n : Val) :
    (NewJSONBrowser h n).1.arrays = h.arrays ∧ (NewJSONBrowser h n).1.maps = h.maps ∧
    ∀ p x, h.node p = some x → (NewJSONBrowser h n).1.node p = some x := by
  unfold NewJSONBrowser
  split
  · exact ⟨rfl, rfl, fun _ _ hp => hp⟩
  · refine ⟨rfl, rfl, fun p x hp => ?_⟩
    have hlt := node_lt h p x hp
    simpa [Heap.node, List.getElem?_append_left hlt] using hp

theorem unwrap_NewJSONBrowser (h : Heap) (n v u : Val) (hv : unwrap h v = some u) :
    unwrap (NewJSONBrowser h n).1 v = some u := by
  cases v <;> try exact hv
  exact (NewJSONBrowser_frame h n).2.2 _ u hv

theorem Get_of_map (h : Heap) (w m : Nat) (key : String) (hw : h.node w = some (Val.map m)) :
    Get h w key = some (NewJSONBrowser h (mapIndex (h.maps.getD m []) key)) := by
  simp only [Get, hw]

theorem getD_set_self (l : List (List (String × Val))) (m : Nat) (x : List (String × Val))
    (hm : m < l.length) : (List.set l m x).getD m [] = x := by
  simp [List.getD_eq_getElem?_getD, List.getElem?_set, hm]

theorem getD_set_ne (l : List (List (String × Val))) (m q : Nat) (x : List (String × Val))
    (hq : q ≠ m) : (List.set l m x).getD q [] = l.getD q [] := by
  simp [List.getD_eq_getElem?_getD, List.getElem?_set, Ne.symm hq]

theorem getD_set_delete (l : List (List (String × Val))) (m : Nat) (k : String) :
    (List.set l m (mapDelete (l.getD m []) k)).getD m [] = mapDelete (l.getD m []) k := by
  by_cases hmlt : m < l.length
  · exact getD_set_self l m _ hmlt
  · simp [List.getD_eq_getElem?_getD, List.getElem?_eq_none (Nat.le_of_not_lt hmlt),
      mapDelete, List.getElem?_set, hmlt]

theorem Put_through_Get (h : Heap) (root m m2 : Nat) (kv2 : List (String × Val))
    (k j : String) (v u : Val) (hnull : h.node NullBrowser = some Val.nil)
    (hroot : h.node root = some (Val.map m))
    (hk : (h.maps.getD m []).lookup k = some (Val.map m2)) (hm2 : h.maps[m2]? = some kv2)
    (hv : unwrap h v = some u) (htree : m2 ≠ m ∨ j ≠ k) :
    ∃ h1 w1 h2 h3 w3, Get h root k = some (h1, w1) ∧ Put h1 w1 j v = some (h2, none) ∧
      Get h2 root k = some (h3, w3) ∧ wrapped (Get h3 w3 j) = some u := by
  have hidx : mapIndex (h.maps.getD m []) k = Val.map m2 := by
    simp only [mapIndex, hk, Option.getD_some]
  have f1 := NewJSONBrowser_frame h (Val.map m2)
  have n1 := node_NewJSONBrowser h (Val.map m2) hnull
  have u1 := unwrap_NewJSONBrowser h (Val.map m2) v u hv
  have hG1 := Get_of_map h root m k hroot
  rw [hidx] at hG1
  obtain ⟨⟨h1, w1⟩, hr1⟩ : ∃ r, NewJSONBrowser h (Val.map m2) = r := ⟨_, rfl⟩
  rw [hr1] at f1 n1 u1 hG1
  simp only at f1 n1 u1
  obtain ⟨_, hmaps1, hnodes1⟩ := f1
  have hm2' : h1.maps[m2]? = some kv2 := by rw [hmaps1]; exact hm2
  have hm2lt : m2 < h.maps.length := by
    by_contra hlt
    rw [List.getElem?_eq_none (Nat.le_of_not_lt hlt)] at hm2
    cases hm2
  let h2 : Heap := { h1 with maps := List.set h1.maps m2 (mapAssign kv2 j u) }
  have hP : Put h1 w1 j v = some (h2, none) := by
    simp only [Put, n1, u1, Option.some_bind, Heap.mapStore, hm2', Option.map_some', h2]
  have hroot2 : h2.node root = some (Val.map m) := hnodes1 root _ hroot
  have hnull2 : h2.node NullBrowser = some Val.nil := hnodes1 _ _ hnull
  have hself : h2.maps.getD m2 [] = mapAssign kv2 j u := by
    show (List.set h1.maps m2 (mapAssign kv2 j u)).getD m2 [] = _
    rw [hmaps1]
    exact getD_set_self _ _ _ hm2lt
  have hkv2 : h.maps.getD m2 [] = kv2 := by simp [List.getD_eq_getElem?_getD, hm2]
  have hidx2 : mapIndex (h2.maps.getD m []) k = Val.map m2 := by
    by_cases hmm : m = m2
    · subst hmm
      have hjk : k ≠ j := by
        rcases htree with h' | h'
        · exact absurd rfl h'
        · exact Ne.symm h'
      rw [hself, mapIndex_mapAssign_ne kv2 j k u hjk, ← hkv2]
      exact hidx
    · show mapIndex ((List.set h1.maps m2 (mapAssign kv2 j u)).getD m []) k = _
      rw [hmaps1, getD_set_ne _ _ _ _ hmm]
      exact hidx
  have f3 := NewJSONBrowser_frame h2 (Val.map m2)
  have n3 := node_NewJSONBrowser h2 (Val.map m2) hnull2
  have hG2 := Get_of_map h2 root m k hroot2
  rw [hidx2] at hG2
  obtain ⟨⟨h3, w3⟩, hr3⟩ : ∃ r, NewJSONBrowser h2 (Val.map m2) = r := ⟨_, rfl⟩
  rw [hr3] at f3 n3 hG2
  simp only at f3 n3
  obtain ⟨_, hmaps3, hnodes3⟩ := f3
  refine ⟨h1, w1, h2, h3, w3, hG1, hP, hG2, ?_⟩
  rw [wrapped_Get h3 w3 m2 j (hnodes3 _ _ hnull2) n3, hmaps3, hself, mapIndex_mapAssign_self]

theorem Remove_through_Get (h : Heap) (root m m2 : Nat) (k j : String)
    (hnull : h.node NullBrowser = some Val.nil) (hroot : h.node root = some (Val.map m))
    (hk : (h.maps.getD m []).lookup k = some (Val.map m2)) :
    ∃ h1 w1 h2 h3 w3, Get h root k = some (h1, w1) ∧ Remove h1 w1 j = some (h2, none) ∧
      Get h2 root k = some (h3, w3) ∧ Get h3 w3 j = some (h3, NullBrowser) := by
  have hidx : mapIndex (h.maps.getD m []) k = Val.map m2 := by
    simp only [mapIndex, hk, Option.getD_some]
  have f1 := NewJSONBrowser_frame h (Val.map m2)
  have n1 := node_NewJSONBrowser h (Val.map m2) hnull
  have hG1 := Get_of_map h root m k hroot
  rw [hidx] at hG1
  obtain ⟨⟨h1, w1⟩, hr1⟩ : ∃ r, NewJSONBrowser h (Val.map m2) = r := ⟨_, rfl⟩
  rw [hr1] at f1 n1 hG1
  simp only at f1 n1
  obtain ⟨_, hmaps1, hnodes1⟩ := f1
  let h2 : Heap := { h1 with maps := List.set h1.maps m2 (mapDelete (h1.maps.getD m2 []) j) }
  have hR : Remove h1 w1 j = some (h2, none) := by
    simp only [Remove, n1, h2]
  have hroot2 : h2.node root = some (Val.map m) := hnodes1 root _ hroot
  have hnull2 : h2.node NullBrowser = some Val.nil := hnodes1 _ _ hnull
  have hself : h2.maps.getD m2 [] = mapDelete (h.maps.getD m2 []) j := by
    show (List.set h1.maps m2 (mapDelete (h1.maps.getD m2 []) j)).getD m2 [] = _
    rw [hmaps1]
    exact getD_set_delete _ _ _
  have hG2 := Get_of_map h2 root m k hroot2
  by_cases hcyc : m = m2 ∧ k = j
  · obtain ⟨rfl, rfl⟩ := hcyc
    have hidx2 : mapIndex (h2.maps.getD m []) k = Val.nil := by
      rw [hself]
      simp [mapIndex, lookup_mapDelete_self]
    rw [hidx2] at hG2
    have hG2' : Get h2 root k = some (h2, NullBrowser) := by
      rw [hG2]; simp [NewJSONBrowser]
    refine ⟨h1, w1, h2, h2, NullBrowser, hG1, hR, hG2', ?_⟩
    simp only [Get, hnull2]
  · have hidx2 : mapIndex (h2.maps.getD m []) k = Val.map m2 := by
      by_cases hmm : m = m2
      · subst hmm
        have hjk : k ≠ j := fun hkj => hcyc ⟨rfl, hkj⟩
        rw [hself]
        simp only [mapIndex, lookup_mapDelete_ne _ j k hjk]
        exact hidx
      · show mapIndex ((List.set h1.maps m2 (mapDelete (h1.maps.getD m2 []) j)).getD m []) k = _
        rw [hmaps1, getD_set_ne _ _ _ _ hmm]
        exact hidx
    have f3 := NewJSONBrowser_frame h2 (Val.map m2)
    have n3 := node_NewJSONBrowser h2 (Val.map m2) hnull2
    rw [hidx2] at hG2
    obtain ⟨⟨h3, w3⟩, hr3⟩ : ∃ r, NewJSONBrowser h2 (Val.map m2) = r := ⟨_, rfl⟩
    rw [hr3] at f3 n3 hG2
    simp only at f3 n3
    obtain ⟨_, hmaps3, hnodes3⟩ := f3
    refine ⟨h1, w1, h2, h3, w3, hG1, hR, hG2, ?_⟩
    rw [Get_of_map h3 w3 m2 j n3, hmaps3, hself]
    simp [mapIndex, lookup_mapDelete_self, NewJSONBrowser]

theorem elems_congr (h h1 : Heap) (a off n : Nat) (harr : h1.arrays = h.arrays) :
    h1.elems a off n = h.elems a off n := by
  simp only [Heap.elems, Heap.array, harr]

theorem okVal_congr (h h1 : Heap) (v : Val) (harr : h1.arrays = h.arrays) (hv : h.okVal v) :
    h1.okVal v := by
  cases v <;> try trivial
  simpa only [Heap.okVal, Heap.array, harr] using hv

theorem Set_through_Get (h : Heap) (root m : Nat) (k : String) (a off N cap : Nat) (i : Int)
    (v u : Val) (hnull : h.node NullBrowser = some Val.nil)
    (hroot : h.node root = some (Val.map m))
    (hk : (h.maps.getD m []).lookup k = some (Val.slice a off N cap))
    (hok : h.okVal (Val.slice a off N cap)) (hi : 0 ≤ i ∧ i < N)
    (hv : unwrap h v = some u) :
    ∃ h1 w1 h2 h3 w3, Get h root k = some (h1, w1) ∧ Set h1 w1 i v = some (h2, none) ∧
      Get h2 root k = some (h3, w3) ∧ wrapped (Index h3 w3 i) = some u := by
  have hidx : mapIndex (h.maps.getD m []) k = Val.slice a off N cap := by
    simp only [mapIndex, hk, Option.getD_some]
  have f1 := NewJSONBrowser_frame h (Val.slice a off N cap)
  have n1 := node_NewJSONBrowser h (Val.slice a off N cap) hnull
  have u1 := unwrap_NewJSONBrowser h (Val.slice a off N cap) v u hv
  have hG1 := Get_of_map h root m k hroot
  rw [hidx] at hG1
  obtain ⟨⟨h1, w1⟩, hr1⟩ : ∃ r, NewJSONBrowser h (Val.slice a off N cap) = r :=
    ⟨_, rfl⟩
  rw [hr1] at f1 n1 u1 hG1
  simp only at f1 n1 u1
  obtain ⟨harr1, hmaps1, hnodes1⟩ := f1
  have hok1 := okVal_congr h h1 _ harr1 hok
  have hok0 := hok1
  simp only [Heap.okVal] at hok0
  have hk' : i.toNat < N := by omega
  have hge : ¬ (i < 0 ∨ i ≥ (N : Int)) := by omega
  obtain ⟨h2, hst⟩ := storeMany_isSome h1 a (off + i.toNat) [u] (by simp; omega)
  have hfr := storeMany_frame h1 h2 _ _ _ hst
  have harr2 := storeMany_array h1 h2 _ _ _ hst
  have hel := storeMany_elems_set h1 h2 a off N i.toNat u hk' hst
  have hlen := elems_length h1 a off N cap hok1
  have hS : Set h1 w1 i v = some (h2, none) := by
    simp only [Set, n1, if_neg hge, u1, Option.some_bind, hst, Option.map_some']
  have hroot2 : h2.node root = some (Val.map m) := by
    simpa [Heap.node, hfr.1] using hnodes1 root _ hroot
  have hnull2 : h2.node NullBrowser = some Val.nil := by
    simpa [Heap.node, hfr.1] using hnodes1 _ _ hnull
  have hok2 : h2.okVal (Val.slice a off N cap) := by
    simp only [Heap.okVal, harr2]
    simp
    omega
  have hidx2 : mapIndex (h2.maps.getD m []) k = Val.slice a off N cap := by
    rw [hfr.2, hmaps1]; exact hidx
  have f3 := NewJSONBrowser_frame h2 (Val.slice a off N cap)
  have n3 := node_NewJSONBrowser h2 (Val.slice a off N cap) hnull2
  have hG2 := Get_of_map h2 root m k hroot2
  rw [hidx2] at hG2
  obtain ⟨⟨h3, w3⟩, hr3⟩ : ∃ r, NewJSONBrowser h2 (Val.slice a off N cap) = r :=
    ⟨_, rfl⟩
  rw [hr3] at f3 n3 hG2
  simp only at f3 n3
  obtain ⟨harr3, _, hnodes3⟩ := f3
  refine ⟨h1, w1, h2, h3, w3, hG1, hS, hG2, ?_⟩
  rw [wrapped_Index h3 w3 a off N cap i (hnodes3 _ _ hnull2) n3
      (okVal_congr h2 h3 _ harr3 hok2),
    if_pos hi, elems_congr h2 h3 a off N harr3, hel, List.getElem?_set_self (by omega)]

theorem Put_through_Get_self (h : Heap) (root m : Nat) (kv : List (String × Val))
    (k : String) (v u : Val) (hnull : h.node NullBrowser = some Val.nil)
    (hroot : h.node root = some (Val.map m))
    (hk : (h.maps.getD m []).lookup k = some (Val.map m)) (hm : h.maps[m]? = some kv)
    (hv : unwrap h v = some u) :
    ∃ h1 w1 h2, Get h root k = some (h1, w1) ∧ Put h1 w1 k v = some (h2, none) ∧
      wrapped (Get h2 root k) = some u := by
  have hidx : mapIndex (h.maps.getD m []) k = Val.map m := by
    simp only [mapIndex, hk, Option.getD_some]
  have f1 := NewJSONBrowser_frame h (Val.map m)
  have n1 := node_NewJSONBrowser h (Val.map m) hnull
  have u1 := unwrap_NewJSONBrowser h (Val.map m) v u hv
  have hG1 := Get_of_map h root m k hroot
  rw [hidx] at hG1
  obtain ⟨⟨h1, w1⟩, hr1⟩ : ∃ r, NewJSONBrowser h (Val.map m) = r := ⟨_, rfl⟩
  rw [hr1] at f1 n1 u1 hG1
  simp only at f1 n1 u1
  obtain ⟨_, hmaps1, hnodes1⟩ := f1
  have hm' : h1.maps[m]? = some kv := by rw [hmaps1]; exact hm
  have hmlt : m < h.maps.length := by
    by_contra hlt
    rw [List.getElem?_eq_none (Nat.le_of_not_lt hlt)] at hm
    cases hm
  let h2 : Heap := { h1 with maps := List.set h1.maps m (mapAssign kv k u) }
  have hP : Put h1 w1 k v = some (h2, none) := by
    simp only [Put, n1, u1, Option.some_bind, Heap.mapStore, hm', Option.map_some', h2]
  have hroot2 : h2.node root = some (Val.map m) := hnodes1 root _ hroot
  have hnull2 : h2.node NullBrowser = some Val.nil := hnodes1 _ _ hnull
  have hself : h2.maps.getD m [] = mapAssign kv k u := by
    show (List.set h1.maps m (mapAssign kv k u)).getD m [] = _
    rw [hmaps1]
    exact getD_set_self _ _ _ hmlt
  refine ⟨h1, w1, h2, hG1, hP, ?_⟩
  rw [wrapped_Get h2 root m k hnull2 hroot2, hself, mapIndex_mapAssign_self]

/-- C11, counterexample where the Mapping under `k` is the map of `root` itself.  In
the heap of the scenario after `w := root.Get("a")`, `root.Put("self", root)` and
`w.Add(root)`, the key `"self"` of `root` holds the map of `root`;
`root.Get("self").Put("self", 7)` returns no error and replaces that entry, so the
following `root.Get("self")` wraps `7` and `root.Get("self").Get("self")` is the
`NullBrowser` singleton, whose node is nil: it does not wrap `7`. -/
theorem C11_Put_under_self_reference :
    runOps goGrow id scenarioHeap
      [Op.get 1 "a", Op.put 1 "self" (Val.browser 1), Op.add 2 (Val.browser 1)] =
      some scenarioSelfHeap ∧
    scenarioSelfHeap.node NullBrowser = some Val.nil ∧
    scenarioSelfHeap.node 1 = some (Val.map 0) ∧
    (scenarioSelfHeap.maps.getD 0 []).lookup "self" = some (Val.map 0) ∧
    unwrap scenarioSelfHeap (Val.int 7) = some (Val.int 7) ∧
    (∃ h1 w1 h2 h3 w3, Get scenarioSelfHeap 1 "self" = some (h1, w1) ∧
      Put h1 w1 "self" (Val.int 7) = some (h2, none) ∧
      Get h2 1 "self" = some (h3, w3) ∧ h3.node w3 = some (Val.int 7) ∧
      Get h3 w3 "self" = some (h3, NullBrowser) ∧
      wrapped (Get h3 w3 "self") = some Val.nil) ∧
    ¬ ∃ h1 w1 h2 h3 w3, Get scenarioSelfHeap 1 "self" = some (h1, w1) ∧
      Put h1 w1 "self" (Val.int 7) = some (h2, none) ∧
      Get h2 1 "self" = some (h3, w3) ∧ wrapped (Get h3 w3 "self") = some (Val.int 7) := by
  have hG1 : Get scenarioSelfHeap 1 "self" =
      some ({ scenarioSelfHeap with wrappers := scenarioSelfHeap.wrappers ++ [Val.map 0] }, 3) := by
    decide
  have hP : Put { scenarioSelfHeap with wrappers := scenarioSelfHeap.wrappers ++ [Val.map 0] }
      3 "self" (Val.int 7) = some (selfPutHeap, none) := by decide
  have hG2 : Get selfPutHeap 1 "self" =
      some ({ selfPutHeap with wrappers := selfPutHeap.wrappers ++ [Val.int 7] }, 4) := by decide
  have hG3 : Get { selfPutHeap with wrappers := selfPutHeap.wrappers ++ [Val.int 7] } 4 "self" =
      some ({ selfPutHeap with wrappers := selfPutHeap.wrappers ++ [Val.int 7] }, NullBrowser) := by
    decide
  refine ⟨by decide, by decide, by decide, by decide, rfl,
    ⟨_, _, _, _, _, hG1, hP, hG2, by decide, hG3, by decide⟩, ?_⟩
  rintro ⟨h1, w1, h2, h3, w3, e1, e2, e3, e4⟩
  rw [hG1] at e1
  simp only [Option.some.injEq, Prod.mk.injEq] at e1
  obtain ⟨rfl, rfl⟩ := e1
  rw [hP] at e2
  simp only [Option.some.injEq, Prod.mk.injEq, and_true] at e2
  subst e2
  rw [hG2] at e3
  simp only [Option.some.injEq, Prod.mk.injEq] at e3
  obtain ⟨rfl, rfl⟩ := e3
  rw [hG3] at e4
  exact absurd e4 (by decide)

/-- C11: mutations in place made through a wrapper obtained by navigation are seen
from the parent.  For a Mapping `root` whose key `k` holds a Mapping,
`root.Get(k).Put(j, v)` returns no error; when the Mapping held is another map than
the one of `root`, or `j` another key than `k`, `root.Get(k).Get(j)` then wraps `v` (the
node of `v` when `v` is a wrapper); when it is the map of `root` itself and `j` is `k`,
the `Put` replaced the entry under `k`, and `root.Get(k)` then wraps `v`.
`root.Get(k).Remove(j)` returns no error and then `root.Get(k).Get(j)` is the
`NullBrowser` singleton.  For a `root` whose key `k` holds a Sequence of length `N` and
`0 <= i < N`: `root.Get(k).Set(i, v)` returns no error and then `root.Get(k).Index(i)`
wraps `v`. -/
theorem C11_visible_from_parent (h : Heap) (root m : Nat) (k : String) (v u : Val)
    (hnull : h.node NullBrowser = some Val.nil) (hroot : h.node root = some (Val.map m))
    (hv : unwrap h v = some u) :
    (∀ m2 kv2 j, (h.maps.getD m []).lookup k = some (Val.map m2) → h.maps[m2]? = some kv2 →
      (m2 ≠ m ∨ j ≠ k) →
      ∃ h1 w1 h2 h3 w3, Get h root k = some (h1, w1) ∧ Put h1 w1 j v = some (h2, none) ∧
        Get h2 root k = some (h3, w3) ∧ wrapped (Get h3 w3 j) = some u) ∧
    (∀ kv, (h.maps.getD m []).lookup k = some (Val.map m) → h.maps[m]? = some kv →
      ∃ h1 w1 h2, Get h root k = some (h1, w1) ∧ Put h1 w1 k v = some (h2, none) ∧
        wrapped (Get h2 root k) = some u) ∧
    (∀ m2 j, (h.maps.getD m []).lookup k = some (Val.map m2) →
      ∃ h1 w1 h2 h3 w3, Get h root k = some (h1, w1) ∧ Remove h1 w1 j = some (h2, none) ∧
        Get h2 root k = some (h3, w3) ∧ Get h3 w3 j = some (h3, NullBrowser)) ∧
    (∀ a off N cap i, (h.maps.getD m []).lookup k = some (Val.slice a off N cap) →
      h.okVal (Val.slice a off N cap) → (0 ≤ i ∧ i < (N : Int)) →
      ∃ h1 w1 h2 h3 w3, Get h root k = some (h1, w1) ∧ Set h1 w1 i v = some (h2, none) ∧
        Get h2 root k = some (h3, w3) ∧ wrapped (Index h3 w3 i) = some u) :=
  ⟨fun m2 kv2 j hk hm2 htree =>
      Put_through_Get h root m m2 kv2 k j v u hnull hroot hk hm2 hv htree,
    fun kv hk hm => Put_through_Get_self h root m kv k v u hnull hroot hk hm hv,
    fun m2 j hk => Remove_through_Get h root m m2 k j hnull hroot hk,
    fun a off N cap i hk hok hi =>
      Set_through_Get h root m k a off N cap i v u hnull hroot hk hok hi hv⟩

/-- C11 on the tree of `nestedHeap`: `Put("y", 7)` and `Remove("x")` through
`root.Get("o")`, and `Set(1, 7)` through `root.Get("a")`, are seen from the root; and on
`scenarioSelfHeap`, after `Put("self", 7)` through `root.Get("self")` the root wraps `7`
under `"self"`. -/
theorem C11_visible_from_parent_witness :
    nestedHeap.node NullBrowser = some Val.nil ∧ nestedHeap.node 1 = some (Val.map 0) ∧
    unwrap nestedHeap (Val.int 7) = some (Val.int 7) ∧
    (∃ h1 w1 h2 h3 w3, Get nestedHeap 1 "o" = some (h1, w1) ∧
      Put h1 w1 "y" (Val.int 7) = some (h2, none) ∧
      Get h2 1 "o" = some (h3, w3) ∧ wrapped (Get h3 w3 "y") = some (Val.int 7)) ∧
    (∃ h1 w1 h2 h3 w3, Get nestedHeap 1 "o" = some (h1, w1) ∧
      Remove h1 w1 "x" = some (h2, none) ∧
      Get h2 1 "o" = some (h3, w3) ∧ Get h3 w3 "x" = some (h3, NullBrowser)) ∧
    (∃ h1 w1 h2 h3 w3, Get nestedHeap 1 "a" = some (h1, w1) ∧
      Set h1 w1 1 (Val.int 7) = some (h2, none) ∧
      Get h2 1 "a" = some (h3, w3) ∧ wrapped (Index h3 w3 1) = some (Val.int 7)) ∧
    (∃ h1 w1 h2, Get scenarioSelfHeap 1 "self" = some (h1, w1) ∧
      Put h1 w1 "self" (Val.int 7) = some (h2, none) ∧
      wrapped (Get h2 1 "self") = some (Val.int 7)) :=
  have hO := C11_visible_from_parent nestedHeap 1 0 "o" (Val.int 7) (Val.int 7) (by decide)
    (by decide) rfl
  have hA := C11_visible_from_parent nestedHeap 1 0 "a" (Val.int 7) (Val.int 7) (by decide)
    (by decide) rfl
  have hS := C11_visible_from_parent scenarioSelfHeap 1 0 "self" (Val.int 7) (Val.int 7)
    (by decide) (by decide) rfl
  ⟨by decide, by decide, rfl,
    hO.1 1 [("x", Val.float64 (F64.fin false 1 0))] "y" (by decide) (by decide)
      (Or.inl (by decide)),
    hO.2.2.1 1 "x" (by decide),
    hA.2.2.2 0 0 3 4 1 (by decide) ⟨by decide, by decide⟩ ⟨by decide, by decide⟩,
    hS.2.1 [("self", Val.map 0), ("a", Val.slice 0 0 3 4), ("b", Val.string "x")]
      (by decide) (by decide)⟩

/-! ## Where stored values come from -/

theorem loadMany_mem (h : Heap) (a p n : Nat) (tl : List Val)
    (hl : h.loadMany a p n = some tl) : ∀ v ∈ tl, ∃ ys ∈ h.arrays, v ∈ ys := by
  intro v hv
  unfold Heap.loadMany at hl
  split at hl
  · simp only [Option.some.injEq] at hl
    subst hl
    exact mem_array h a v (List.mem_of_mem_drop (List.mem_of_mem_take hv))
  · cases hl

theorem storeMany_mem (h h1 : Heap) (a p : Nat) (vs : List Val)
    (hs : h.storeMany a p vs = some h1) :
    ∀ xs ∈ h1.arrays, ∀ v ∈ xs, (∃ ys ∈ h.arrays, v ∈ ys) ∨ v ∈ vs := by
  intro xs hxs v hv
  unfold Heap.storeMany at hs
  split at hs
  · simp only [Option.some.injEq] at hs
    subst hs
    rcases List.mem_or_eq_of_mem_set hxs with hmem | hmem
    · exact Or.inl ⟨xs, hmem, hv⟩
    · subst hmem
      simp only [List.mem_append] at hv
      rcases hv with (hv | hv) | hv
      · exact Or.inl (mem_array h a v (List.mem_of_mem_take hv))
      · exact Or.inr hv
      · exact Or.inl (mem_array h a v (List.mem_of_mem_drop hv))
  · cases hs

theorem append_frame (g : Nat → Nat → Nat) (h h1 : Heap) (a off len cap : Nat)
    (vs : List Val) (s : Val) (hap : append g h a off len cap vs = some (h1, s)) :
    h1.wrappers = h.wrappers ∧ h1.maps = h.maps ∧
    (∃ a1 off1 len1 cap1, s = Val.slice a1 off1 len1 cap1) ∧
    ∀ xs ∈ h1.arrays, ∀ v ∈ xs,
      (∃ ys ∈ h.arrays, v ∈ ys) ∨ v ∈ vs ∨ v = Val.nil := by
  unfold append at hap
  split at hap
  · simp only [Option.map_eq_some', Prod.mk.injEq] at hap
    obtain ⟨h2, hst, rfl, rfl⟩ := hap
    have hfr := storeMany_frame h h2 _ _ _ hst
    refine ⟨hfr.1, hfr.2, ⟨_, _, _, _, rfl⟩, fun xs hxs v hv => ?_⟩
    rcases storeMany_mem h h2 _ _ _ hst xs hxs v hv with hm | hm
    · exact Or.inl hm
    · exact Or.inr (Or.inl hm)
  · simp only [Option.map_eq_some', Prod.mk.injEq] at hap
    obtain ⟨old, hold, rfl, rfl⟩ := hap
    refine ⟨rfl, rfl, ⟨_, _, _, _, rfl⟩, fun xs hxs v hv => ?_⟩
    rcases List.mem_append.1 hxs with hmem | hmem
    · exact Or.inl ⟨xs, hmem, hv⟩
    · simp only [List.mem_singleton] at hmem
      subst hmem
      simp only [List.mem_append, List.mem_replicate] at hv
      rcases hv with (hv | hv) | hv
      · exact Or.inl (loadMany_mem h a off len old hold v hv)
      · exact Or.inr (Or.inl hv)
      · exact Or.inr (Or.inr hv.2)

theorem lookup_mem (kv : List (String × Val)) (key : String) (v : Val)
    (hl : kv.lookup key = some v) : (key, v) ∈ kv := by
  induction kv with
  | nil => simp at hl
  | cons p kv ih =>
    obtain ⟨k1, v1⟩ := p
    rw [List.lookup_cons] at hl
    split at hl
    · next hk =>
      have hk1 : key = k1 := by simpa using hk
      have hv1 : v1 = v := by simpa using hl
      simp [hk1, hv1]
    · exact List.mem_cons_of_mem _ (ih hl)

theorem mem_maps_getD (h : Heap) (m : Addr) (p : String × Val) (hp : p ∈ h.maps.getD m []) :
    ∃ kv ∈ h.maps, p ∈ kv := by
  rw [List.getD_eq_getElem?_getD] at hp
  cases hx : h.maps[m]? with
  | none => simp [hx] at hp
  | some kv =>
    rw [hx] at hp
    exact ⟨kv, List.getElem?_mem hx, hp⟩

theorem mapIndex_mem (h : Heap) (m : Addr) (key : String) :
    mapIndex (h.maps.getD m []) key = Val.nil ∨
    ∃ kv ∈ h.maps, ∃ p ∈ kv, p.2 = mapIndex (h.maps.getD m []) key := by
  unfold mapIndex
  cases hl : (h.maps.getD m []).lookup key with
  | none => exact Or.inl rfl
  | some v =>
    obtain ⟨kv, hkv, hp⟩ := mem_maps_getD h m _ (lookup_mem _ key v hl)
    exact Or.inr ⟨kv, hkv, (key, v), hp, rfl⟩

/-! ## Wrappers are never stored -/

theorem noWrapper_NewJSONBrowser (h : Heap) (n : Val) (hnw : h.noWrapper)
    (hn : n.isBrowser = false) : (NewJSONBrowser h n).1.noWrapper := by
  unfold NewJSONBrowser
  split
  · exact hnw
  · refine ⟨fun v hv => ?_, hnw.2.1, hnw.2.2⟩
    rcases List.mem_append.1 hv with hv | hv
    · exact hnw.1 v hv
    · simp only [List.mem_singleton] at hv
      subst hv
      exact hn

theorem noWrapper_wrapAll (vs : List Val) (h : Heap) (hnw : h.noWrapper)
    (hvs : ∀ v ∈ vs, v.isBrowser = false) : (wrapAll h vs).1.noWrapper := by
  induction vs generalizing h with
  | nil => exact hnw
  | cons v vs ih =>
    exact ih _ (noWrapper_NewJSONBrowser h v hnw (hvs v (List.mem_cons_self _ _)))
      (fun x hx => hvs x (List.mem_cons_of_mem _ hx))

theorem noWrapper_init : Heap.init.noWrapper := by
  refine ⟨by decide, by decide, by decide⟩

theorem noWrapper_unwrap (h : Heap) (v u : Val) (hnw : h.noWrapper)
    (hu : unwrap h v = some u) : u.isBrowser = false := by
  cases v <;> simp only [unwrap, Option.some.injEq] at hu <;> try (subst hu; rfl)
  exact hnw.1 u (List.getElem?_mem hu)

theorem noWrapper_set_map (h : Heap) (m : Addr) (kv : List (String × Val))
    (hnw : h.noWrapper) (hkv : ∀ p ∈ kv, p.2.isBrowser = false) :
    Heap.noWrapper { h with maps := List.set h.maps m kv } := by
  refine ⟨hnw.1, hnw.2.1, fun kv1 hkv1 => ?_⟩
  rcases List.mem_or_eq_of_mem_set hkv1 with hmem | hmem
  · exact hnw.2.2 kv1 hmem
  · subst hmem
    exact hkv

theorem noWrapper_storeMany (h h1 : Heap) (a p : Nat) (vs : List Val) (hnw : h.noWrapper)
    (hvs : ∀ v ∈ vs, v.isBrowser = false) (hs : h.storeMany a p vs = some h1) :
    h1.noWrapper := by
  have hfr := storeMany_frame h h1 a p vs hs
  refine ⟨fun v hv => hnw.1 v (hfr.1 ▸ hv), fun xs hxs v hv => ?_,
    fun kv hkv => hnw.2.2 kv (hfr.2 ▸ hkv)⟩
  rcases storeMany_mem h h1 a p vs hs xs hxs v hv with ⟨ys, hys, hvy⟩ | hm
  · exact hnw.2.1 ys hys v hvy
  · exact hvs v hm

theorem noWrapper_append_set (g : Nat → Nat → Nat) (h h1 : Heap) (a off len cap : Nat)
    (vs : List Val) (s : Val) (jb : Addr) (hnw : h.noWrapper)
    (hvs : ∀ v ∈ vs, v.isBrowser = false)
    (hap : append g h a off len cap vs = some (h1, s)) :
    Heap.noWrapper { h1 with wrappers := List.set h1.wrappers jb s } := by
  obtain ⟨hwr, hmp, ⟨a1, off1, len1, cap1, rfl⟩, hmem⟩ :=
    append_frame g h h1 a off len cap vs _ hap
  refine ⟨fun v hv => ?_, fun xs hxs v hv => ?_, fun kv hkv => hnw.2.2 kv (hmp ▸ hkv)⟩
  · rcases List.mem_or_eq_of_mem_set hv with hv | hv
    · exact hnw.1 v (hwr ▸ hv)
    · subst hv; rfl
  · rcases hmem xs hxs v hv with ⟨ys, hys, hvy⟩ | hm | hm
    · exact hnw.2.1 ys hys v hvy
    · exact hvs v hm
    · subst hm; rfl

theorem foldl_mapAssign_mem (kv acc : List (String × Val)) (p : String × Val)
    (hp : p ∈ kv.foldl (fun m q => mapAssign m q.1 q.2) acc) : p ∈ acc ∨ p ∈ kv := by
  induction kv generalizing acc with
  | nil => exact Or.inl hp
  | cons q kv ih =>
    rcases ih _ hp with hmem | hmem
    · simp only [mapAssign, mapDelete, List.mem_cons, List.mem_filter] at hmem
      rcases hmem with rfl | ⟨hmem, _⟩
      · exact Or.inr (List.mem_cons_self _ _)
      · exact Or.inl hmem
    · exact Or.inr (List.mem_cons_of_mem _ hmem)

theorem assignAll_mem (kv : List (String × Val)) (p : String × Val) (hp : p ∈ assignAll kv) :
    p ∈ kv := by
  rcases foldl_mapAssign_mem kv [] p hp with hmem | hmem
  · cases hmem
  · exact hmem

theorem noWrapper_run (g : Nat → Nat → Nat)
    (ord : List (String × Val) → List (String × Val))
    (hord : ∀ kv, (ord kv).Perm kv) (h h1 : Heap) (op : Op) (hnw : h.noWrapper)
    (hop : op.plain = true) (hr : op.run g ord h = some h1) : h1.noWrapper := by
  cases op with
  | index jb i =>
    simp only [Op.run, Option.map_eq_some'] at hr
    obtain ⟨r, hr, rfl⟩ := hr
    unfold Index at hr
    split at hr
    · cases hr
    · next a off len cap hw =>
      split at hr
      · simp only [Option.map_eq_some'] at hr
        obtain ⟨e, he, rfl⟩ := hr
        obtain ⟨xs, hxs, hex⟩ := mem_array h a e (List.getElem?_mem he)
        exact noWrapper_NewJSONBrowser h e hnw (hnw.2.1 xs hxs e hex)
      · simp only [Option.some.injEq] at hr
        subst hr
        exact hnw
    · simp only [Option.some.injEq] at hr
      subst hr
      exact hnw
  | get jb key =>
    simp only [Op.run, Option.map_eq_some'] at hr
    obtain ⟨r, hr, rfl⟩ := hr
    unfold Get at hr
    split at hr
    · cases hr
    · next m hw =>
      simp only [Option.some.injEq] at hr
      subst hr
      apply noWrapper_NewJSONBrowser h _ hnw
      rcases mapIndex_mem h m key with h0 | ⟨kv, hkv, p, hp, hpe⟩
      · rw [h0]; rfl
      · rw [← hpe]; exact hnw.2.2 kv hkv p hp
    · simp only [Option.some.injEq] at hr
      subst hr
      exact hnw
  | values jb =>
    simp only [Op.run, Option.map_eq_some'] at hr
    obtain ⟨r, hr, rfl⟩ := hr
    unfold Values at hr
    split at hr
    · cases hr
    · next a off len cap hw =>
      simp only [Option.map_eq_some'] at hr
      obtain ⟨es, hes, rfl⟩ := hr
      apply noWrapper_wrapAll es h hnw
      intro v hv
      obtain ⟨ys, hys, hvy⟩ := loadMany_mem h a off len es hes v hv
      exact hnw.2.1 ys hys v hvy
    · next m hw =>
      simp only [Option.some.injEq] at hr
      subst hr
      apply noWrapper_wrapAll _ h hnw
      intro v hv
      simp only [List.mem_map] at hv
      obtain ⟨p, hp, rfl⟩ := hv
      obtain ⟨kv, hkv, hpk⟩ := mem_maps_getD h m p ((hord _).mem_iff.1 hp)
      exact hnw.2.2 kv hkv p hpk
    · simp only [Option.some.injEq] at hr
      subst hr
      exact hnw
  | put jb key value =>
    simp only [Op.run, Option.map_eq_some'] at hr
    obtain ⟨r, hr, rfl⟩ := hr
    unfold Put at hr
    split at hr
    · cases hr
    · next m hw =>
      simp only [Option.bind_eq_some, Option.map_eq_some'] at hr
      obtain ⟨u, hu, h2, hst, rfl⟩ := hr
      have hur := noWrapper_unwrap h value u hnw hu
      unfold Heap.mapStore at hst
      split at hst
      · cases hst
      · next kv hm =>
        simp only [Option.some.injEq] at hst
        subst hst
        apply noWrapper_set_map h m _ hnw
        intro p hp
        simp only [mapAssign, mapDelete, List.mem_cons, List.mem_filter] at hp
        rcases hp with rfl | ⟨hp, _⟩
        · exact hur
        · exact hnw.2.2 kv (List.getElem?_mem hm) p hp
    · simp only [Option.some.injEq] at hr
      subst hr
      exact hnw
  | remove jb key =>
    simp only [Op.run, Option.map_eq_some'] at hr
    obtain ⟨r, hr, rfl⟩ := hr
    unfold Remove at hr
    split at hr
    · cases hr
    · next m hw =>
      simp only [Option.some.injEq] at hr
      subst hr
      apply noWrapper_set_map h m _ hnw
      intro p hp
      simp only [mapDelete, List.mem_filter] at hp
      obtain ⟨kv, hkv, hpk⟩ := mem_maps_getD h m p hp.1
      exact hnw.2.2 kv hkv p hpk
    · simp only [Option.some.injEq] at hr
      subst hr
      exact hnw
  | add jb value =>
    simp only [Op.run, Option.map_eq_some'] at hr
    obtain ⟨r, hr, rfl⟩ := hr
    unfold Add at hr
    split at hr
    · cases hr
    · next a off len cap hw =>
      simp only [Option.bind_eq_some, Option.map_eq_some'] at hr
      obtain ⟨u, hu, ⟨h2, s⟩, hap, rfl⟩ := hr
      have hur := noWrapper_unwrap h value u hnw hu
      apply noWrapper_append_set g h h2 a off len cap [u] s jb hnw _ hap
      intro x hx
      simp only [List.mem_singleton] at hx
      subst hx
      exact hur
    · simp only [Option.some.injEq] at hr
      subst hr
      exact hnw
  | set jb i value =>
    simp only [Op.run, Option.map_eq_some'] at hr
    obtain ⟨r, hr, rfl⟩ := hr
    unfold Set at hr
    split at hr
    · cases hr
    · next a off len cap hw =>
      split at hr
      · simp only [Option.some.injEq] at hr
        subst hr
        exact hnw
      · simp only [Option.bind_eq_some, Option.map_eq_some'] at hr
        obtain ⟨u, hu, h2, hst, rfl⟩ := hr
        have hur := noWrapper_unwrap h value u hnw hu
        apply noWrapper_storeMany h h2 a _ [u] hnw _ hst
        intro x hx
        simp only [List.mem_singleton] at hx
        subst hx
        exact hur
    · simp only [Option.some.injEq] at hr
      subst hr
      exact hnw
  | removeAt jb i =>
    simp only [Op.run, Option.map_eq_some'] at hr
    obtain ⟨r, hr, rfl⟩ := hr
    unfold RemoveAt at hr
    split at hr
    · cases hr
    · next a off len cap hw =>
      split at hr
      · simp only [Option.some.injEq] at hr
        subst hr
        exact hnw
      · simp only [Option.bind_eq_some, Option.map_eq_some'] at hr
        obtain ⟨tl, htl, ⟨h2, s⟩, hap, rfl⟩ := hr
        apply noWrapper_append_set g h h2 a off _ cap tl s jb hnw _ hap
        intro x hx
        obtain ⟨ys, hys, hxy⟩ := loadMany_mem h a _ _ tl htl x hx
        exact hnw.2.1 ys hys x hxy
    · simp only [Option.some.injEq] at hr
      subst hr
      exact hnw
  | newEmptyMap =>
    simp only [Op.run, Option.some.injEq] at hr
    subst hr
    refine noWrapper_NewJSONBrowser _ (Val.map h.maps.length) ?_ rfl
    refine ⟨hnw.1, hnw.2.1, fun kv hkv => ?_⟩
    rcases List.mem_append.1 hkv with hmem | hmem
    · exact hnw.2.2 kv hmem
    · simp only [List.mem_singleton] at hmem
      subst hmem
      intro p hp
      cases hp
  | newEmptyList =>
    simp only [Op.run, Option.some.injEq] at hr
    subst hr
    refine noWrapper_NewJSONBrowser _ (Val.slice h.arrays.length 0 0 0) ?_ rfl
    refine ⟨hnw.1, fun xs hxs => ?_, hnw.2.2⟩
    rcases List.mem_append.1 hxs with hmem | hmem
    · exact hnw.2.1 xs hmem
    · simp only [List.mem_singleton] at hmem
      subst hmem
      intro p hp
      cases hp
  | newJSONBrowser node =>
    simp only [Op.run, Option.some.injEq] at hr
    subst hr
    simp only [Op.plain, Bool.not_eq_true'] at hop
    exact noWrapper_NewJSONBrowser h node hnw hop
  | makeSlice xs =>
    simp only [Op.run, Option.some.injEq] at hr
    subst hr
    simp only [Op.plain, List.all_eq_true, Bool.not_eq_true'] at hop
    refine ⟨hnw.1, fun ys hys => ?_, hnw.2.2⟩
    rcases List.mem_append.1 hys with hmem | hmem
    · exact hnw.2.1 ys hmem
    · simp only [List.mem_singleton] at hmem
      subst hmem
      exact hop
  | makeMap kv =>
    simp only [Op.run, Option.some.injEq] at hr
    subst hr
    simp only [Op.plain, List.all_eq_true, Bool.not_eq_true'] at hop
    refine ⟨hnw.1, hnw.2.1, fun kv1 hkv1 => ?_⟩
    rcases List.mem_append.1 hkv1 with hmem | hmem
    · exact hnw.2.2 kv1 hmem
    · simp only [List.mem_singleton] at hmem
      subst hmem
      intro p hp
      rcases assignAll_mem kv p hp with hq
      exact hop p hq

theorem noWrapper_runOps (g : Nat → Nat → Nat)
    (ord : List (String × Val) → List (String × Val)) (hord : ∀ kv, (ord kv).Perm kv)
    (ops : List Op) (h h1 : Heap) (hnw : h.noWrapper) (hops : ∀ op ∈ ops, op.plain = true)
    (hr : runOps g ord h ops = some h1) : h1.noWrapper := by
  induction ops generalizing h with
  | nil =>
    simp only [runOps, Option.some.injEq] at hr
    subst hr
    exact hnw
  | cons op ops ih =>
    simp only [runOps, Option.bind_eq_some] at hr
    obtain ⟨h2, hop, hrest⟩ := hr
    exact ih h2 (noWrapper_run g ord hord h h2 op hnw (hops op (List.mem_cons_self _ _)) hop)
      (fun o ho => hops o (List.mem_cons_of_mem _ ho)) hrest

theorem Put_stores (h h1 : Heap) (w m : Nat) (key : String) (v u : Val)
    (hw : h.node w = some (Val.map m)) (hv : unwrap h v = some u)
    (hp : Put h w key v = some (h1, none)) : (h1.maps.getD m []).lookup key = some u := by
  simp only [Put, hw, hv, Option.some_bind, Option.map_eq_some', Prod.mk.injEq, and_true] at hp
  obtain ⟨h2, hst, rfl⟩ := hp
  unfold Heap.mapStore at hst
  split at hst
  · cases hst
  · next kv hm =>
    simp only [Option.some.injEq] at hst
    subst hst
    have hmlt : m < h.maps.length := by
      by_contra hlt
      rw [List.getElem?_eq_none (Nat.le_of_not_lt hlt)] at hm
      cases hm
    show ((List.set h.maps m (mapAssign kv key u)).getD m []).lookup key = some u
    rw [getD_set_self _ _ _ hmlt]
    simp [mapAssign, List.lookup_cons]

theorem Add_stores (g : Nat → Nat → Nat) (h h1 : Heap) (w a off N cap : Nat) (v u : Val)
    (hw : h.node w = some (Val.slice a off N cap)) (hok : h.okVal (Val.slice a off N cap))
    (hv : unwrap h v = some u) (hadd : Add g h w v = some (h1, none)) :
    ∃ a1 off1 cap1, h1.node w = some (Val.slice a1 off1 (N + 1) cap1) ∧
      (h1.elems a1 off1 (N + 1))[N]? = some u := by
  obtain ⟨h2, a1, off1, cap1, hap, _, hel, hwr, _⟩ := append_spec g h a off N cap [u] hok
  have hlen := elems_length h a off N cap hok
  have hwlt := node_lt h w _ hw
  simp only [Add, hw, hv, Option.some_bind, hap, Option.map_some', Option.some.injEq,
    Prod.mk.injEq, and_true] at hadd
  subst hadd
  refine ⟨a1, off1, cap1, ?_, ?_⟩
  · simp [Heap.node, hwr, hwlt]
  · show (h2.elems a1 off1 (N + 1))[N]? = some u
    have hel1 : h2.elems a1 off1 (N + 1) = h.elems a off N ++ [u] := hel
    rw [hel1, List.getElem?_append_right (by omega), hlen]
    simp

theorem Set_stores (h h1 : Heap) (w a off N cap : Nat) (i : Int) (v u : Val)
    (hw : h.node w = some (Val.slice a off N cap)) (hv : unwrap h v = some u)
    (hset : Set h w i v = some (h1, none)) :
    (0 ≤ i ∧ i < N) ∧ (h1.elems a off N)[i.toNat]? = some u := by
  unfold Set at hset
  rw [hw] at hset
  simp only at hset
  split at hset
  · simp at hset
  · next hin =>
    simp only [hv, Option.some_bind, Option.map_eq_some', Prod.mk.injEq, and_true] at hset
    obtain ⟨h2, hst, rfl⟩ := hset
    have hi : 0 ≤ i ∧ i < (N : Int) := by omega
    refine ⟨hi, ?_⟩
    rw [elems_getElem?, if_pos (by omega), storeMany_load h h2 a _ _ [u] hst]
    simp

/-- C12, counterexample where a wrapper is over a wrapper: after `root := NewEmptyMap()`
and `w := NewJSONBrowser(root)` no backing array and no map holds a wrapper (the one
map is empty), `root.Put("k", w)` returns no error, and the map of `root` then holds
under `"k"` the node of `w`, which is the wrapper `root`: `root.Get("k")` is a wrapper
whose node is a wrapper. -/
theorem C12_wrapper_over_wrapper_is_stored :
    NewEmptyMap Heap.init = (⟨[], [[]], [Val.nil, Val.map 0]⟩, 1) ∧
    NewJSONBrowser ⟨[], [[]], [Val.nil, Val.map 0]⟩ (Val.browser 1) =
      (wrapperOverWrapperHeap, 2) ∧
    runOps goGrow id Heap.init [Op.newEmptyMap, Op.newJSONBrowser (Val.browser 1)] =
      some wrapperOverWrapperHeap ∧
    (∀ xs ∈ wrapperOverWrapperHeap.arrays, ∀ v ∈ xs, v.isBrowser = false) ∧
    (∀ kv ∈ wrapperOverWrapperHeap.maps, ∀ p ∈ kv, p.2.isBrowser = false) ∧
    Put wrapperOverWrapperHeap 1 "k" (Val.browser 2) =
      some (⟨[], [[("k", Val.browser 1)]], [Val.nil, Val.map 0, Val.browser 1]⟩, none) ∧
    wrapped (Get ⟨[], [[("k", Val.browser 1)]], [Val.nil, Val.map 0, Val.browser 1]⟩ 1 "k") =
      some (Val.browser 1) ∧
    ¬ ∀ kv ∈ Heap.maps ⟨[], [[("k", Val.browser 1)]], [Val.nil, Val.map 0, Val.browser 1]⟩,
      ∀ p ∈ kv, p.2.isBrowser = false := by
  refine ⟨by decide, by decide, by decide, by decide, by decide, by decide, by decide, ?_⟩
  intro hall
  have hk := hall [("k", Val.browser 1)] (List.mem_singleton.2 rfl) ("k", Val.browser 1)
    (List.mem_singleton.2 rfl)
  exact absurd hk (by decide)

/-- A container the client built with a wrapper in it is stored as it is: after
`root := NewEmptyMap()` and `xs := []any\x7broot\x7d`, `root.Put("k", xs)` returns no error
and the map of `root` holds under `"k"` a Sequence whose element is the wrapper
`root`. -/
theorem caller_slice_with_wrapper_is_stored :
    runOps goGrow id Heap.init [Op.newEmptyMap, Op.makeSlice [Val.browser 1]] =
      some callerSliceHeap ∧
    Put callerSliceHeap 1 "k" (Val.slice 0 0 1 1) =
      some (⟨[[Val.browser 1]], [[("k", Val.slice 0 0 1 1)]], [Val.nil, Val.map 0]⟩, none) ∧
    wrapped (Get ⟨[[Val.browser 1]], [[("k", Val.slice 0 0 1 1)]], [Val.nil, Val.map 0]⟩ 1 "k") =
      some (Val.slice 0 0 1 1) ∧
    Heap.elems ⟨[[Val.browser 1]], [[("k", Val.slice 0 0 1 1)]], [Val.nil, Val.map 0]⟩ 0 0 1 =
      [Val.browser 1] := by
  refine ⟨by decide, by decide, by decide, by decide⟩

/-- C12: in every heap a successful `Put`, `Add` or `Set` whose value is a
wrapper stores the node of that wrapper (the map entry, the last element, the
element at the index is that node).  From a heap in which no array cell, no map
entry and no wrapper node is a wrapper, the node of every wrapper is not a wrapper,
and no sequence of steps (mutations with any values, navigation, constructors,
containers built by the client) in which `NewJSONBrowser` is not applied to a wrapper
and no container the client builds holds a wrapper leads to a heap in which one
is. -/
theorem C12_wrappers_never_stored (g : Nat → Nat → Nat)
    (ord : List (String × Val) → List (String × Val)) (hord : ∀ kv, (ord kv).Perm kv)
    (h : Heap) :
    (∀ w p u h1, h.node p = some u →
      (∀ m key, h.node w = some (Val.map m) →
        Put h w key (Val.browser p) = some (h1, none) →
        (h1.maps.getD m []).lookup key = some u) ∧
      (∀ a off N cap, h.node w = some (Val.slice a off N cap) →
        h.okVal (Val.slice a off N cap) → Add g h w (Val.browser p) = some (h1, none) →
        ∃ a1 off1 cap1, h1.node w = some (Val.slice a1 off1 (N + 1) cap1) ∧
          (h1.elems a1 off1 (N + 1))[N]? = some u) ∧
      (∀ a off N cap i, h.node w = some (Val.slice a off N cap) →
        Set h w i (Val.browser p) = some (h1, none) →
        (h1.elems a off N)[i.toNat]? = some u)) ∧
    (h.noWrapper →
      (∀ p u, h.node p = some u → u.isBrowser = false) ∧
      (∀ ops h1, (∀ op ∈ ops, op.plain = true) → runOps g ord h ops = some h1 →
        h1.noWrapper)) := by
  refine ⟨fun w p u h1 hp => ⟨?_, ?_, ?_⟩,
    fun hnw => ⟨fun p u hp => hnw.1 u (List.getElem?_mem hp),
      fun ops h1 hops hr => noWrapper_runOps g ord hord ops h h1 hnw hops hr⟩⟩
  · intro m key hw hput
    exact Put_stores h h1 w m key (Val.browser p) u hw hp hput
  · intro a off N cap hw hok hadd
    exact Add_stores g h h1 w a off N cap (Val.browser p) u hw hok hp hadd
  · intro a off N cap i hw hset
    exact (Set_stores h h1 w a off N cap i (Val.browser p) u hw hp hset).2

/-- C12 on the scenario: storing the root wrapper itself through `Put` and `Add`
stores its node, the root map, and leaves a heap without any stored wrapper. -/
theorem C12_wrappers_never_stored_witness :
    (∀ kv : List (String × Val), (id kv).Perm kv) ∧ scenarioHeap.noWrapper ∧
    (∀ op ∈ [Op.get 1 "a", Op.put 1 "self" (Val.browser 1), Op.add 2 (Val.browser 1)],
      op.plain = true) ∧
    runOps goGrow id scenarioHeap
      [Op.get 1 "a", Op.put 1 "self" (Val.browser 1), Op.add 2 (Val.browser 1)] =
      some scenarioSelfHeap ∧
    (scenarioSelfHeap.maps.getD 0 []).lookup "self" = some (Val.map 0) ∧
    scenarioSelfHeap.noWrapper :=
  have hnw : scenarioHeap.noWrapper := by
    refine ⟨by decide, by decide, by decide⟩
  have hops : ∀ op ∈ [Op.get 1 "a", Op.put 1 "self" (Val.browser 1),
      Op.add 2 (Val.browser 1)], op.plain = true := by decide
  have hrun : runOps goGrow id scenarioHeap
      [Op.get 1 "a", Op.put 1 "self" (Val.browser 1), Op.add 2 (Val.browser 1)] =
      some scenarioSelfHeap := by decide
  ⟨fun kv => List.Perm.refl kv, hnw, hops, hrun, by decide,
    ((C12_wrappers_never_stored goGrow id (fun kv => List.Perm.refl kv) scenarioHeap).2
      hnw).2 _ scenarioSelfHeap hops hrun⟩

/-! ## Coercion to integers -/

/-- What the code does on a `json.Number`: the type switches of `AsLong` and `AsInt`
have the cases `float64`, `int`, `int64` and `string`; a `json.Number` is none of
these types, so both return the default, whatever the literal. -/
theorem AsLong_AsInt_of_number (h : Heap) (w : Addr) (s : String) (d : Int)
    (hw : h.node w = some (Val.number s)) : AsLong h w d = some d ∧ AsInt h w d = some d := by
  simp only [AsLong, AsInt, hw, Option.map_some', and_self]

theorem AsLong_AsInt_of_number_witness :
    AsLong readerHeap42 1 7 = some 7 ∧ AsInt readerHeap42 1 7 = some 7 :=
  AsLong_AsInt_of_number readerHeap42 1 "42" 7 (by decide)

/-- C13 (the code on the number `42`): the tree `ParseReader` builds holds the
`json.Number` `"42"`, on which `AsLong(0)` and `AsInt(0)` return the default `0`,
not `42`; the tree `ParseJsonString` builds holds the `float64` 42, on which both
return `42`. -/
theorem C13_reader_number_gives_default :
    AsLong readerHeap42 1 0 = some 0 ∧ AsInt readerHeap42 1 0 = some 0 ∧
    AsLong stringHeap42 1 0 = some 42 ∧ AsInt stringHeap42 1 0 = some 42 := by
  refine ⟨?_, ?_, ?_, ?_⟩ <;> decide

theorem floor_mantissa (m : Nat) (e : Int) :
    ⌊(m : ℚ) * (2 : ℚ) ^ e⌋ =
      if 0 ≤ e then (m : Int) * 2 ^ e.toNat else (m : Int) / 2 ^ (-e).toNat := by
  split
  · next he =>
    obtain ⟨k, rfl⟩ := Int.eq_ofNat_of_zero_le he
    have : (m : ℚ) * (2 : ℚ) ^ (k : ℤ) = (((m : Int) * 2 ^ k : Int) : ℚ) := by
      push_cast
      rw [zpow_natCast]
    rw [this, Int.floor_intCast]
    simp
  · next he =>
    obtain ⟨k, hk⟩ : ∃ k : ℕ, e = -(k : ℤ) := ⟨(-e).toNat, by omega⟩
    subst hk
    have : (m : ℚ) * (2 : ℚ) ^ (-(k : ℤ)) = ((m : Int) : ℚ) / ((2 ^ k : ℕ) : ℚ) := by
      push_cast
      rw [zpow_neg, zpow_natCast, div_eq_mul_inv]
    rw [this, Rat.floor_intCast_div_natCast]
    simp

theorem f64ToInt64_eq_truncToZero (f : F64) (q : ℚ) (hq : f.toRat = some q)
    (hlo : -(2 : ℚ) ^ 63 ≤ q) (hhi : q < (2 : ℚ) ^ 63) : f64ToInt64 f = truncToZero q := by
  cases f with
  | inf neg => cases hq
  | nan => cases hq
  | fin neg m e =>
    simp only [F64.toRat, Option.some.injEq] at hq
    have ha : (0 : ℚ) ≤ (m : ℚ) * (2 : ℚ) ^ e := by positivity
    have ht := floor_mantissa m e
    have hv : (if neg then
        -(if 0 ≤ e then (m : Int) * 2 ^ e.toNat else (m : Int) / 2 ^ (-e).toNat)
        else (if 0 ≤ e then (m : Int) * 2 ^ e.toNat else (m : Int) / 2 ^ (-e).toNat)) =
        truncToZero q := by
      rw [← ht]
      cases neg with
      | false =>
        have hqa : q = (m : ℚ) * (2 : ℚ) ^ e := by rw [← hq]; simp
        simp only [Bool.false_eq_true, if_false, truncToZero, hqa, if_pos ha]
      | true =>
        have hqa : q = -((m : ℚ) * (2 : ℚ) ^ e) := by rw [← hq]; simp
        simp only [if_true, truncToZero, hqa]
        split
        · next h0 =>
          have hz : (m : ℚ) * (2 : ℚ) ^ e = 0 := le_antisymm (by linarith) ha
          rw [hz]
          simp
        · exact Int.ceil_neg.symm
    have hrange : -(2 : Int) ^ 63 ≤ truncToZero q ∧ truncToZero q < (2 : Int) ^ 63 := by
      unfold truncToZero
      split
      · next h0 =>
        constructor
        · have : (0 : Int) ≤ ⌊q⌋ := Int.floor_nonneg.2 h0
          omega
        · rw [Int.floor_lt]
          exact_mod_cast hhi
      · next h0 =>
        constructor
        · have h1 : q ≤ (⌈q⌉ : ℚ) := Int.le_ceil q
          have h2 : (-(2 : ℚ) ^ 63) ≤ (⌈q⌉ : ℚ) := le_trans hlo h1
          exact_mod_cast h2
        · have : ⌈q⌉ ≤ 0 := by
            rw [Int.ceil_le]
            push_cast
            linarith
          omega
    unfold f64ToInt64
    simp only
    rw [hv, if_pos hrange]

/-- C14: on a node that is an `int` or an `int64` with value `x`, `AsLong(d)` and
`AsInt(d)` return `x`; on a node that is a `float64` with value `q` inside the signed
64-bit range they return `q` truncated toward zero; in each case whatever `d`. -/
theorem C14_numbers_truncate (h : Heap) (w : Addr) (n : Val) (d : Int)
    (hw : h.node w = some n) :
    (∀ x, n = Val.int x ∨ n = Val.int64 x →
      AsLong h w d = some x ∧ AsInt h w d = some x) ∧
    (∀ f q, n = Val.float64 f → f.toRat = some q →
      -(2 : ℚ) ^ 63 ≤ q → q < (2 : ℚ) ^ 63 →
      AsLong h w d = some (truncToZero q) ∧ AsInt h w d = some (truncToZero q)) := by
  constructor
  · rintro x (rfl | rfl) <;> simp only [AsLong, AsInt, hw, Option.map_some', and_self]
  · rintro f q rfl hq hlo hhi
    simp only [AsLong, AsInt, hw, Option.map_some', f64ToInt64_eq_truncToZero f q hq hlo hhi,
      and_self]

/-- C14 on the `float64` nearest to `3.9` and to `-3.9`, with the default 7: `AsInt`
gives the truncation of the exact value, which is `3` and `-3`. -/
theorem C14_numbers_truncate_witness :
    (floatHeap39 false).node 1 = some (Val.float64 (F64.fin false 8782019273372467 (-51))) ∧
    AsInt (floatHeap39 false) 1 7 =
      some (truncToZero ((8782019273372467 : ℚ) * (2 : ℚ) ^ (-51 : ℤ))) ∧
    AsInt (floatHeap39 false) 1 7 = some 3 ∧ AsInt (floatHeap39 true) 1 7 = some (-3) ∧
    AsLong (floatHeap39 true) 1 7 = some (-3) := by
  have hC := (C14_numbers_truncate (floatHeap39 false) 1 _ 7 (by decide)).2
    (F64.fin false 8782019273372467 (-51)) ((8782019273372467 : ℚ) * (2 : ℚ) ^ (-51 : ℤ)) rfl
    (by simp [F64.toRat]) (by norm_num) (by norm_num)
  exact ⟨by decide, hC.2, by decide, by decide, by decide⟩

theorem foldl_digits_none (cs : List Char) :
    cs.foldl (fun acc c => acc.bind fun n =>
      if c.isDigit then some (10 * n + (c.toNat - 48)) else none) none = none := by
  induction cs with
  | nil => rfl
  | cons c cs ih => simpa using ih

theorem foldl_digits (cs : List Char) (acc : Nat) :
    cs.foldl (fun acc c => acc.bind fun n =>
      if c.isDigit then some (10 * n + (c.toNat - 48)) else none) (some acc) =
    if cs.all Char.isDigit = true then
      some (acc * 10 ^ cs.length + Nat.ofDigits 10 (cs.reverse.map digitVal))
    else none := by
  induction cs generalizing acc with
  | nil => simp
  | cons c cs ih =>
    rw [List.foldl_cons]
    by_cases hc : c.isDigit = true
    · simp only [Option.some_bind, hc, if_true, ih, List.all_cons, Bool.true_and]
      split
      · simp only [List.reverse_cons, List.map_append, List.map_cons, List.map_nil,
          Nat.ofDigits_append, Nat.ofDigits_singleton, List.length_map, List.length_reverse,
          List.length_cons, digitVal, Option.some.injEq]
        ring
      · rfl
    · simp only [Option.some_bind, hc, Bool.false_eq_true, if_false, foldl_digits_none,
        List.all_cons, Bool.false_and]

theorem parseDigits_eq (ds : List Char) :
    parseDigits ds =
      if ds ≠ [] ∧ ds.all Char.isDigit = true then
        some (Nat.ofDigits 10 (ds.reverse.map digitVal))
      else none := by
  unfold parseDigits
  cases ds with
  | nil => simp
  | cons c cs =>
    simp only [List.isEmpty_cons, Bool.false_eq_true, if_false, foldl_digits, ne_eq,
      reduceCtorEq, not_false_eq_true, true_and, Nat.zero_mul, Nat.zero_add]

theorem ParseInt_of_split (s : String) (neg : Bool) (ds : List Char)
    (hr : (match s.toList with
      | '+' :: ds => (false, ds)
      | '-' :: ds => (true, ds)
      | ds => (false, ds)) = (neg, ds)) :
    ParseInt s = match parseDigits ds with
      | none => none
      | some n =>
        if neg = true then (if n ≤ 2 ^ 63 then some (-(n : Int)) else none)
        else (if n < 2 ^ 63 then some (n : Int) else none) := by
  unfold ParseInt
  simp only [hr]

theorem ParseInt_of_digits (s : String) (neg : Bool) (ds : List Char)
    (hr : (match s.toList with
      | '+' :: ds => (false, ds)
      | '-' :: ds => (true, ds)
      | ds => (false, ds)) = (neg, ds)) :
    (¬ (ds ≠ [] ∧ ds.all Char.isDigit = true) → ParseInt s = none) ∧
    ((ds ≠ [] ∧ ds.all Char.isDigit = true) →
      ∀ v : Int, v = (if neg = true then -1 else 1) *
          ((Nat.ofDigits 10 (ds.reverse.map digitVal) : Nat) : Int) →
        (fitsInt64 v → ParseInt s = some v) ∧ (¬ fitsInt64 v → ParseInt s = none)) := by
  rw [ParseInt_of_split s neg ds hr, parseDigits_eq]
  constructor
  · intro hd
    rw [if_neg hd]
  · intro hd v hv
    rw [if_pos hd]
    generalize Nat.ofDigits 10 (ds.reverse.map digitVal) = n at hv
    unfold fitsInt64
    cases neg with
    | false =>
      have hv' : v = (n : Int) := by simpa using hv
      subst hv'
      show (_ → (if n < 2 ^ 63 then some (n : Int) else none) = some (n : Int)) ∧
        (_ → (if n < 2 ^ 63 then some (n : Int) else none) = none)
      constructor
      · intro hf
        rw [if_pos (by omega)]
      · intro hf
        rw [if_neg (by omega)]
    | true =>
      have hv' : v = -(n : Int) := by simpa using hv
      subst hv'
      show (_ → (if n ≤ 2 ^ 63 then some (-(n : Int)) else none) = some (-(n : Int))) ∧
        (_ → (if n ≤ 2 ^ 63 then some (-(n : Int)) else none) = none)
      constructor
      · intro hf
        rw [if_pos (by omega)]
      · intro hf
        rw [if_neg (by omega)]

theorem intLiteral_of_split (s : String) :
    ∃ neg ds, (match s.toList with
      | '+' :: ds => (false, ds)
      | '-' :: ds => (true, ds)
      | ds => (false, ds)) = (neg, ds) ∧
    intLiteral s = if ds ≠ [] ∧ ds.all Char.isDigit = true then
      some ((if neg = true then -1 else 1) *
        ((Nat.ofDigits 10 (ds.reverse.map digitVal) : Nat) : Int)) else none := by
  unfold intLiteral
  generalize s.toList = cs
  cases cs with
  | nil => exact ⟨false, [], rfl, by simp⟩
  | cons c ds =>
    by_cases hp : c = '+'
    · subst hp
      exact ⟨false, ds, rfl, by simp⟩
    · by_cases hm : c = '-'
      · subst hm
        exact ⟨true, ds, rfl, by simp⟩
      · refine ⟨false, c :: ds, ?_, by simp [hp, hm]⟩
        split
        · next h => simp only [List.cons.injEq] at h; exact absurd h.1 hp
        · next h => simp only [List.cons.injEq] at h; exact absurd h.1 hm
        · rfl

theorem ParseInt_spec (s : String) :
    (∀ v, intLiteral s = some v →
      (fitsInt64 v → ParseInt s = some v) ∧ (¬ fitsInt64 v → ParseInt s = none)) ∧
    (intLiteral s = none → ParseInt s = none) := by
  obtain ⟨neg, ds, hr, hlit⟩ := intLiteral_of_split s
  have hP := ParseInt_of_digits s neg ds hr
  rw [hlit]
  constructor
  · intro v hv
    by_cases hd : ds ≠ [] ∧ ds.all Char.isDigit = true
    · rw [if_pos hd] at hv
      exact hP.2 hd v (Option.some.inj hv).symm
    · rw [if_neg hd] at hv
      cases hv
  · intro hn
    by_cases hd : ds ≠ [] ∧ ds.all Char.isDigit = true
    · rw [if_pos hd] at hn
      cases hn
    · exact hP.1 hd

/-- C15: on a Text node `s`, `AsInt(d)` and `AsLong(d)` return the value of `s` when `s`
is a base-10 integer literal (optional sign, then digits) whose value fits 64 bits,
and `d` when the value does not fit or `s` is no such literal; on a Null, Boolean,
Sequence or Mapping node they return `d`. -/
theorem C15_text_to_integer (h : Heap) (w : Addr) (n : Val) (d : Int)
    (hw : h.node w = some n) :
    (∀ s, n = Val.string s →
      (∀ v, intLiteral s = some v → fitsInt64 v →
        AsInt h w d = some v ∧ AsLong h w d = some v) ∧
      (∀ v, intLiteral s = some v → ¬ fitsInt64 v →
        AsInt h w d = some d ∧ AsLong h w d = some d) ∧
      (intLiteral s = none → AsInt h w d = some d ∧ AsLong h w d = some d)) ∧
    ((n = Val.nil ∨ (∃ b, n = Val.bool b) ∨
        (∃ a off len cap, n = Val.slice a off len cap) ∨ ∃ m, n = Val.map m) →
      AsInt h w d = some d ∧ AsLong h w d = some d) := by
  constructor
  · rintro s rfl
    have hspec := ParseInt_spec s
    refine ⟨fun v hv hf => ?_, fun v hv hf => ?_, fun hn => ?_⟩
    · simp only [AsInt, AsLong, hw, Option.map_some', (hspec.1 v hv).1 hf, Option.getD_some,
        and_self]
    · simp only [AsInt, AsLong, hw, Option.map_some', (hspec.1 v hv).2 hf, Option.getD_none,
        and_self]
    · simp only [AsInt, AsLong, hw, Option.map_some', hspec.2 hn, Option.getD_none, and_self]
  · rintro (rfl | ⟨b, rfl⟩ | ⟨a, off, len, cap, rfl⟩ | ⟨m, rfl⟩) <;>
      simp only [AsInt, AsLong, hw, Option.map_some', and_self]

/-- C15 on the Text nodes `"42"`, `"-7"`, `"abc"`, `""`, `"3.9"` and
`"9223372036854775808"` (one more than the largest `int64`), with the default 5. -/
theorem C15_text_to_integer_witness :
    (textHeap "42").node 1 = some (Val.string "42") ∧ intLiteral "42" = some 42 ∧
    fitsInt64 42 ∧ AsInt (textHeap "42") 1 5 = some 42 ∧
    AsLong (textHeap "42") 1 5 = some 42 ∧
    AsInt (textHeap "-7") 1 5 = some (-7) ∧ AsInt (textHeap "abc") 1 5 = some 5 ∧
    AsInt (textHeap "") 1 5 = some 5 ∧ AsInt (textHeap "3.9") 1 5 = some 5 ∧
    AsLong (textHeap "9223372036854775808") 1 5 = some 5 := by
  have hlit : intLiteral "42" = some 42 := by decide
  have hfit : fitsInt64 42 := ⟨by decide, by decide⟩
  have hC := ((C15_text_to_integer (textHeap "42") 1 (Val.string "42") 5 (by decide)).1
    "42" rfl).1 42 hlit hfit
  exact ⟨by decide, hlit, hfit, hC.1, hC.2, by decide, by decide, by decide, by decide,
    by decide⟩

/-! ## Coercion to booleans and to text -/

/-- C16: `AsBoolean(d)` returns `b` on the Boolean `b`, whatever `d`; the parsed value
on a Text that parses as a boolean; and `d` on a Text that does not parse and on
every node that is neither a Boolean nor a Text (Null, Number, Sequence, Mapping). -/
theorem C16_AsBoolean (h : Heap) (w : Addr) (n : Val) (d : Bool) (hw : h.node w = some n) :
    (∀ b, n = Val.bool b → AsBoolean h w d = some b) ∧
    (∀ s b, n = Val.string s → ParseBool s = some b → AsBoolean h w d = some b) ∧
    (∀ s, n = Val.string s → ParseBool s = none → AsBoolean h w d = some d) ∧
    ((∀ b, n ≠ Val.bool b) → (∀ s, n ≠ Val.string s) → AsBoolean h w d = some d) := by
  refine ⟨?_, ?_, ?_, ?_⟩
  · rintro b rfl
    simp only [AsBoolean, hw, Option.map_some']
  · rintro s b rfl hp
    simp only [AsBoolean, hw, Option.map_some', hp, Option.getD_some]
  · rintro s rfl hp
    simp only [AsBoolean, hw, Option.map_some', hp, Option.getD_none]
  · intro hb hs
    cases n <;> simp only [AsBoolean, hw, Option.map_some']
    · exact absurd rfl (hb _)
    · exact absurd rfl (hs _)

/-- C16 on the Text nodes `"true"` and `"abc"` and on the list of the scenario. -/
theorem C16_AsBoolean_witness :
    (textHeap "true").node 1 = some (Val.string "true") ∧ ParseBool "true" = some true ∧
    AsBoolean (textHeap "true") 1 false = some true ∧
    AsBoolean (textHeap "abc") 1 false = some false ∧
    AsBoolean (textHeap "abc") 1 true = some true ∧
    AsBoolean scenarioListHeap 2 true = some true :=
  ⟨by decide, by decide,
    (C16_AsBoolean (textHeap "true") 1 (Val.string "true") false (by decide)).2.1 "true" true
      rfl (by decide),
    by decide, by decide, by decide⟩

theorem FormatFloat_of_integer (frac : F64 → String) (f : F64) (z : Int)
    (hz : f.toInt? = some z) (hne : z ≠ 0) (hlt : z.natAbs < 2 ^ 53) :
    FormatFloat frac f = Itoa z := by
  cases f with
  | inf neg => cases hz
  | nan => cases hz
  | fin neg m e =>
    cases m with
    | zero =>
      exfalso
      apply hne
      simp only [F64.toInt?] at hz
      split at hz
      · simpa using hz.symm
      · split at hz
        · simpa using hz.symm
        · cases hz
    | succ k =>
      unfold FormatFloat
      simp only [hz, if_pos hlt]

/-- C17: `Text()` is absent exactly on a Null node, provided `json.Marshal` succeeds
on the node kinds handed to it; it is `s` itself on the Text `s`, `true` or `false`
on a Boolean, and the decimal rendering of `x` on a Number holding the integer `x`
(an `int`, an `int64`, or a `float64` whose value is an integer of magnitude below
`2^53`, a negative zero apart).  `TextOrDefault(d)` is `d` when `Text()` is absent and
its content otherwise, and `SafeText()` is `TextOrDefault("")`. -/
theorem C17_Text (marshal : Heap → Val → Option String) (frac : F64 → String) (h : Heap)
    (w : Addr) (n : Val) (hw : h.node w = some n) :
    ((n.marshalled = true → (marshal h n).isSome = true) →
      (Text marshal frac h w = some none ↔ n = Val.nil)) ∧
    (∀ s, n = Val.string s → Text marshal frac h w = some (some s)) ∧
    (∀ b, n = Val.bool b →
      Text marshal frac h w = some (some (if b = true then "true" else "false"))) ∧
    (∀ x, n = Val.int x ∨ n = Val.int64 x →
      Text marshal frac h w = some (some (toString x))) ∧
    (∀ f z, n = Val.float64 f → f.toInt? = some z → z ≠ 0 → z.natAbs < 2 ^ 53 →
      Text marshal frac h w = some (some (toString z))) ∧
    (∀ e, n = Val.float64 (F64.fin false 0 e) → Text marshal frac h w = some (some "0")) ∧
    (∀ d, (Text marshal frac h w = some none → TextOrDefault marshal frac h w d = some d) ∧
      ∀ t, Text marshal frac h w = some (some t) →
        TextOrDefault marshal frac h w d = some t) ∧
    SafeText marshal frac h w = TextOrDefault marshal frac h w "" := by
  refine ⟨?_, ?_, ?_, ?_, ?_, ?_, ?_, rfl⟩
  · intro hm
    cases n <;> simp only [Text, hw, Option.map_some', Option.some.injEq, reduceCtorEq,
      Val.marshalled, forall_const, Bool.false_eq_true, false_implies] at hm ⊢
    all_goals
      refine ⟨fun hc => ?_, False.elim⟩
      rw [hc] at hm
      cases hm
  · rintro s rfl
    simp only [Text, hw, Option.map_some']
  · rintro b rfl
    simp only [Text, hw, Option.map_some', FormatBool]
  · rintro x (rfl | rfl) <;> simp only [Text, hw, Option.map_some', Itoa]
  · rintro f z rfl hz hne hlt
    simp only [Text, hw, Option.map_some', FormatFloat_of_integer frac f z hz hne hlt, Itoa]
  · rintro e rfl
    simp only [Text, hw, Option.map_some', FormatFloat, Bool.false_eq_true, if_false]
  · intro d
    constructor
    · intro ht
      simp only [TextOrDefault, ht, Option.map_some']
    · intro t ht
      simp only [TextOrDefault, ht, Option.map_some']

/-- C17 on the Text `"hi"`, on the `float64` 42 of `stringHeap42` and on the singleton,
with an encoder that always fails (none of the three nodes reaches it). -/
theorem C17_Text_witness :
    (textHeap "hi").node 1 = some (Val.string "hi") ∧
    Text (fun _ _ => none) (fun _ => "") (textHeap "hi") 1 = some (some "hi") ∧
    SafeText (fun _ _ => none) (fun _ => "") (textHeap "hi") 1 = some "hi" ∧
    Text (fun _ _ => none) (fun _ => "") stringHeap42 1 = some (some "42") ∧
    Text (fun _ _ => none) (fun _ => "") scenarioHeap NullBrowser = some none ∧
    TextOrDefault (fun _ _ => none) (fun _ => "") scenarioHeap NullBrowser "d" = some "d" := by
  have hC := C17_Text (fun _ _ => none) (fun _ => "") (textHeap "hi") 1 (Val.string "hi")
    (by decide)
  have h1 := hC.2.1 "hi" rfl
  have h2 : SafeText (fun _ _ => none) (fun _ => "") (textHeap "hi") 1 = some "hi" := by
    rw [hC.2.2.2.2.2.2.2]
    exact (hC.2.2.2.2.2.2.1 "").2 "hi" h1
  exact ⟨by decide, h1, h2, by decide, by decide, by decide⟩

/-! ## The node of a wrapper that is not a Sequence never changes -/

theorem wrapAll_node (vs : List Val) (h : Heap) (p : Addr) (x : Val)
    (hp : h.node p = some x) : (wrapAll h vs).1.node p = some x := by
  induction vs generalizing h with
  | nil => exact hp
  | cons v vs ih => exact ih _ ((NewJSONBrowser_frame h v).2.2 p x hp)

theorem run_node (g : Nat → Nat → Nat) (ord : List (String × Val) → List (String × Val))
    (h h1 : Heap) (op : Op) (p : Addr) (x : Val) (hp : h.node p = some x)
    (hx : ∀ a off len cap, x ≠ Val.slice a off len cap) (hr : op.run g ord h = some h1) :
    h1.node p = some x := by
  cases op with
  | index jb i =>
    simp only [Op.run, Option.map_eq_some'] at hr
    obtain ⟨r, hr, rfl⟩ := hr
    unfold Index at hr
    split at hr
    · cases hr
    · split at hr
      · simp only [Option.map_eq_some'] at hr
        obtain ⟨e, _, rfl⟩ := hr
        exact (NewJSONBrowser_frame h e).2.2 p x hp
      · simp only [Option.some.injEq] at hr
        subst hr
        exact hp
    · simp only [Option.some.injEq] at hr
      subst hr
      exact hp
  | get jb key =>
    simp only [Op.run, Option.map_eq_some'] at hr
    obtain ⟨r, hr, rfl⟩ := hr
    unfold Get at hr
    split at hr
    · cases hr
    · simp only [Option.some.injEq] at hr
      subst hr
      exact (NewJSONBrowser_frame h _).2.2 p x hp
    · simp only [Option.some.injEq] at hr
      subst hr
      exact hp
  | values jb =>
    simp only [Op.run, Option.map_eq_some'] at hr
    obtain ⟨r, hr, rfl⟩ := hr
    unfold Values at hr
    split at hr
    · cases hr
    · simp only [Option.map_eq_some'] at hr
      obtain ⟨es, _, rfl⟩ := hr
      exact wrapAll_node es h p x hp
    · simp only [Option.some.injEq] at hr
      subst hr
      exact wrapAll_node _ h p x hp
    · simp only [Option.some.injEq] at hr
      subst hr
      exact hp
  | put jb key value =>
    simp only [Op.run, Option.map_eq_some'] at hr
    obtain ⟨r, hr, rfl⟩ := hr
    unfold Put at hr
    split at hr
    · cases hr
    · simp only [Option.bind_eq_some, Option.map_eq_some'] at hr
      obtain ⟨u, _, h2, hst, rfl⟩ := hr
      unfold Heap.mapStore at hst
      split at hst
      · cases hst
      · simp only [Option.some.injEq] at hst
        subst hst
        exact hp
    · simp only [Option.some.injEq] at hr
      subst hr
      exact hp
  | remove jb key =>
    simp only [Op.run, Option.map_eq_some'] at hr
    obtain ⟨r, hr, rfl⟩ := hr
    unfold Remove at hr
    split at hr
    · cases hr
    · simp only [Option.some.injEq] at hr
      subst hr
      exact hp
    · simp only [Option.some.injEq] at hr
      subst hr
      exact hp
  | add jb value =>
    simp only [Op.run, Option.map_eq_some'] at hr
    obtain ⟨r, hr, rfl⟩ := hr
    unfold Add at hr
    split at hr
    · cases hr
    · next a off len cap hw =>
      simp only [Option.bind_eq_some, Option.map_eq_some'] at hr
      obtain ⟨u, _, ⟨h2, s⟩, hap, rfl⟩ := hr
      have hwr := (append_frame g h h2 a off len cap [u] s hap).1
      have hne : jb ≠ p := by
        rintro rfl
        rw [hw] at hp
        exact hx _ _ _ _ (Option.some.inj hp).symm
      simp only [Heap.node, hwr, List.getElem?_set_ne hne]
      exact hp
    · simp only [Option.some.injEq] at hr
      subst hr
      exact hp
  | set jb i value =>
    simp only [Op.run, Option.map_eq_some'] at hr
    obtain ⟨r, hr, rfl⟩ := hr
    unfold Set at hr
    split at hr
    · cases hr
    · split at hr
      · simp only [Option.some.injEq] at hr
        subst hr
        exact hp
      · simp only [Option.bind_eq_some, Option.map_eq_some'] at hr
        obtain ⟨u, _, h2, hst, rfl⟩ := hr
        simpa [Heap.node, (storeMany_frame h h2 _ _ _ hst).1] using hp
    · simp only [Option.some.injEq] at hr
      subst hr
      exact hp
  | removeAt jb i =>
    simp only [Op.run, Option.map_eq_some'] at hr
    obtain ⟨r, hr, rfl⟩ := hr
    unfold RemoveAt at hr
    split at hr
    · cases hr
    · next a off len cap hw =>
      split at hr
      · simp only [Option.some.injEq] at hr
        subst hr
        exact hp
      · simp only [Option.bind_eq_some, Option.map_eq_some'] at hr
        obtain ⟨tl, _, ⟨h2, s⟩, hap, rfl⟩ := hr
        have hwr := (append_frame g h h2 a off _ cap tl s hap).1
        have hne : jb ≠ p := by
          rintro rfl
          rw [hw] at hp
          exact hx _ _ _ _ (Option.some.inj hp).symm
        simp only [Heap.node, hwr, List.getElem?_set_ne hne]
        exact hp
    · simp only [Option.some.injEq] at hr
      subst hr
      exact hp
  | newEmptyMap =>
    simp only [Op.run, Option.some.injEq] at hr
    subst hr
    exact (NewJSONBrowser_frame _ _).2.2 p x hp
  | newEmptyList =>
    simp only [Op.run, Option.some.injEq] at hr
    subst hr
    exact (NewJSONBrowser_frame _ _).2.2 p x hp
  | newJSONBrowser node =>
    simp only [Op.run, Option.some.injEq] at hr
    subst hr
    exact (NewJSONBrowser_frame _ _).2.2 p x hp
  | makeSlice xs =>
    simp only [Op.run, Option.some.injEq] at hr
    subst hr
    exact hp
  | makeMap kv =>
    simp only [Op.run, Option.some.injEq] at hr
    subst hr
    exact hp

theorem runOps_node (g : Nat → Nat → Nat) (ord : List (String × Val) → List (String × Val))
    (ops : List Op) (h h1 : Heap) (p : Addr) (x : Val) (hp : h.node p = some x)
    (hx : ∀ a off len cap, x ≠ Val.slice a off len cap) (hr : runOps g ord h ops = some h1) :
    h1.node p = some x := by
  induction ops generalizing h with
  | nil =>
    simp only [runOps, Option.some.injEq] at hr
    subst hr
    exact hp
  | cons op ops ih =>
    simp only [runOps, Option.bind_eq_some] at hr
    obtain ⟨h2, hop, hrest⟩ := hr
    exact ih h2 (run_node g ord h h2 op p x hp hx hop) hrest

/-- C20: every mutation applied to the `NullBrowser` singleton returns its shape
error and the heap as it was; and after any sequence of API calls on any wrappers,
with any arguments, the node of the singleton is still nil: `IsNull()` is true,
`IsList()` and `IsMap()` are false. -/
theorem C20_singleton_immutable (g : Nat → Nat → Nat)
    (ord : List (String × Val) → List (String × Val)) (h : Heap)
    (hnull : h.node NullBrowser = some Val.nil) :
    (∀ k v i,
      Put h NullBrowser k v = some (h, some "put only works on maps") ∧
      Remove h NullBrowser k = some (h, some "remove only works on maps") ∧
      Add g h NullBrowser v = some (h, some "add only works on lists") ∧
      Set h NullBrowser i v = some (h, some "set only works on lists") ∧
      RemoveAt g h NullBrowser i = some (h, some "removeAt only works on lists")) ∧
    (∀ ops h1, runOps g ord h ops = some h1 →
      h1.node NullBrowser = some Val.nil ∧ IsNull h1 NullBrowser = some true ∧
      IsList h1 NullBrowser = some false ∧ IsMap h1 NullBrowser = some false) := by
  refine ⟨fun k v i => ?_, fun ops h1 hr => ?_⟩
  · simp only [Put, Remove, Add, Set, RemoveAt, hnull, and_self]
  · have h0 := runOps_node g ord ops h h1 NullBrowser Val.nil hnull
      (fun _ _ _ _ hc => nomatch hc) hr
    refine ⟨h0, ?_, ?_, ?_⟩
    · simp [IsNull, h0]
    · simp only [IsList, h0, Option.map_some']
    · simp only [IsMap, h0, Option.map_some']

/-- C20 on the scenario: the mutations aimed at the singleton fail, and after them and
a successful `Put` on the root the singleton is still null. -/
theorem C20_singleton_immutable_witness :
    scenarioHeap.node NullBrowser = some Val.nil ∧
    Add goGrow scenarioHeap NullBrowser (Val.int 1) =
      some (scenarioHeap, some "add only works on lists") ∧
    ∃ h1, runOps goGrow id scenarioHeap
        [Op.put NullBrowser "k" (Val.int 1), Op.add NullBrowser (Val.int 1),
          Op.put 1 "k" (Val.browser NullBrowser)] = some h1 ∧
      IsNull h1 NullBrowser = some true :=
  have hC := C20_singleton_immutable goGrow id scenarioHeap (by decide)
  have hrun : runOps goGrow id scenarioHeap
      [Op.put NullBrowser "k" (Val.int 1), Op.add NullBrowser (Val.int 1),
        Op.put 1 "k" (Val.browser NullBrowser)] =
      some { scenarioHeap with maps := [[("k", Val.nil), ("a", Val.slice 0 0 3 4),
        ("b", Val.string "x")]] } := by decide
  ⟨by decide, (hC.1 "k" (Val.int 1) 0).2.2.1, _, hrun, (hC.2 _ _ hrun).2.1⟩

/-! ## Enumeration -/

theorem wrapAll_null (vs : List Val) (h : Heap) (hnull : h.node NullBrowser = some Val.nil) :
    (wrapAll h vs).1.node NullBrowser = some Val.nil := by
  induction vs generalizing h with
  | nil => exact hnull
  | cons v vs ih => exact ih _ ((NewJSONBrowser_frame h v).2.2 _ _ hnull)

theorem wrapAll_nodes (vs : List Val) (h : Heap) (hnull : h.node NullBrowser = some Val.nil) :
    (wrapAll h vs).2.map (fun r => (wrapAll h vs).1.node r) = vs.map some := by
  induction vs generalizing h with
  | nil => rfl
  | cons v vs ih =>
    have hnull1 := (NewJSONBrowser_frame h v).2.2 _ _ hnull
    simp only [wrapAll, List.map_cons, List.cons.injEq]
    exact ⟨wrapAll_node vs _ _ v (node_NewJSONBrowser h v hnull), ih _ hnull1⟩

theorem wrapAll_length (vs : List Val) (h : Heap) : (wrapAll h vs).2.length = vs.length := by
  induction vs generalizing h with
  | nil => rfl
  | cons v vs ih => simp only [wrapAll, List.length_cons, ih]

/-- C18: on a wrapper over a Sequence of length `N`, `Values()` returns `N` wrappers, the
`i`-th of them over the `i`-th element, which is what `Index(i)` wraps; on a Mapping
with `m` entries it returns `m` wrappers whose nodes are a permutation of the stored
values, whatever the order in which the runtime visits the map; on every other node,
Null included, it returns no wrapper and leaves the heap as it was. -/
theorem C18_Values (ord : List (String × Val) → List (String × Val))
    (hord : ∀ kv, (ord kv).Perm kv) (h : Heap) (w : Addr) (n : Val)
    (hnull : h.node NullBrowser = some Val.nil) (hw : h.node w = some n)
    (hok : h.okVal n) :
    (∀ a off N cap, n = Val.slice a off N cap →
      ∃ h1 rs, Values ord h w = some (h1, rs) ∧ rs.length = N ∧
        ∀ i, i < N → (rs[i]?).bind h1.node = (h.elems a off N)[i]? ∧
          (rs[i]?).bind h1.node = wrapped (Index h w (i : Int))) ∧
    (∀ m, n = Val.map m →
      ∃ h1 rs, Values ord h w = some (h1, rs) ∧ rs.length = (h.maps.getD m []).length ∧
        (rs.map h1.node).Perm ((h.maps.getD m []).map fun p => some p.2)) ∧
    ((∀ a off N cap, n ≠ Val.slice a off N cap) → (∀ m, n ≠ Val.map m) →
      Values ord h w = some (h, [])) := by
  refine ⟨?_, ?_, ?_⟩
  · rintro a off N cap rfl
    have hok0 := hok
    simp only [Heap.okVal] at hok0
    have hld := loadMany_eq_elems h a off N (by omega)
    have hlen := elems_length h a off N cap hok
    refine ⟨(wrapAll h (h.elems a off N)).1, (wrapAll h (h.elems a off N)).2, ?_, ?_, ?_⟩
    · simp only [Values, hw, hld, Option.map_some']
    · rw [wrapAll_length, hlen]
    · intro i hi
      have hnodes := wrapAll_nodes (h.elems a off N) h hnull
      have hi1 : ((wrapAll h (h.elems a off N)).2[i]?).bind (wrapAll h (h.elems a off N)).1.node =
          (h.elems a off N)[i]? := by
        have := congrArg (fun l => (l[i]?).join) hnodes
        simp only [List.getElem?_map] at this
        have hlt : i < (h.elems a off N).length := by omega
        rw [List.getElem?_eq_getElem hlt] at this ⊢
        have hlt2 : i < (wrapAll h (h.elems a off N)).2.length := by
          rw [wrapAll_length]; exact hlt
        rw [List.getElem?_eq_getElem hlt2] at this ⊢
        simpa using this
      refine ⟨hi1, ?_⟩
      rw [hi1, wrapped_Index h w a off N cap (i : Int) hnull hw hok, if_pos (by omega)]
      simp
  · rintro m rfl
    refine ⟨(wrapAll h ((ord (h.maps.getD m [])).map Prod.snd)).1,
      (wrapAll h ((ord (h.maps.getD m [])).map Prod.snd)).2, ?_, ?_, ?_⟩
    · simp only [Values, hw]
    · rw [wrapAll_length, List.length_map, (hord _).length_eq]
    · rw [wrapAll_nodes _ h hnull, List.map_map]
      exact (hord _).map _
  · intro hns hnm
    cases n <;> simp only [Values, hw]
    · exact absurd rfl (hns _ _ _ _)
    · exact absurd rfl (hnm _)

/-- C18 on the scenario: `Values()` of the list `[1, 2, 3]` has three wrappers, the one
at index 1 over `2`; `Values()` of the root map has two; `Values()` of the singleton
has none. -/
theorem C18_Values_witness :
    (∀ kv : List (String × Val), (List.reverse kv).Perm kv) ∧
    scenarioListHeap.node NullBrowser = some Val.nil ∧
    scenarioListHeap.node 2 = some (Val.slice 0 0 3 4) ∧
    scenarioListHeap.okVal (Val.slice 0 0 3 4) ∧
    (∃ h1 rs, Values List.reverse scenarioListHeap 2 = some (h1, rs) ∧ rs.length = 3 ∧
      (rs[1]?).bind h1.node = some (Val.float64 (F64.fin false 2 0))) ∧
    (∃ h1 rs, Values List.reverse scenarioListHeap 1 = some (h1, rs) ∧ rs.length = 2) ∧
    Values List.reverse scenarioListHeap NullBrowser = some (scenarioListHeap, []) := by
  have hC := fun w n hw hok => C18_Values List.reverse List.reverse_perm scenarioListHeap w n
    (by decide) hw hok
  obtain ⟨h1, rs, hv, hlen, hi⟩ :=
    (hC 2 (Val.slice 0 0 3 4) (by decide) ⟨by decide, by decide⟩).1 0 0 3 4 rfl
  obtain ⟨h2, rs2, hv2, hlen2, _⟩ := (hC 1 (Val.map 0) (by decide) trivial).2.1 0 rfl
  refine ⟨List.reverse_perm, by decide, by decide, ⟨by decide, by decide⟩,
    ⟨h1, rs, hv, hlen, ?_⟩, ⟨h2, rs2, hv2, ?_⟩,
    (hC NullBrowser Val.nil (by decide) trivial).2.2 (fun _ _ _ _ hc => nomatch hc)
      (fun _ hc => nomatch hc)⟩
  · rw [(hi 1 (by decide)).1]
    decide
  · rw [hlen2]
    decide

/-! ## The Null singleton -/

theorem navigate_NullBrowser (steps : List Step) (h : Heap)
    (hnull : h.node NullBrowser = some Val.nil) :
    navigate h NullBrowser steps = some (h, NullBrowser) := by
  induction steps with
  | nil => rfl
  | cons s steps ih =>
    cases s with
    | key k => simpa only [navigate, Get, hnull, Option.some_bind] using ih
    | idx i => simpa only [navigate, Index, hnull, Option.some_bind] using ih

/-- C19: `NewJSONBrowser` of a nil node returns the `NullBrowser` singleton itself;
`Get` and `Index` return the singleton, in an unchanged heap, on a missing key, an
index out of range, a node of the wrong kind and an entry or element that is an
explicit null; `IsNull()` is true on the singleton and on every wrapper whose node is
nil, false on every wrapper whose node is not; and every navigation chain that
starts at the singleton ends at the singleton. -/
theorem C19_Null_singleton (h : Heap) (hnull : h.node NullBrowser = some Val.nil) :
    NewJSONBrowser h Val.nil = (h, NullBrowser) ∧
    (∀ w n key, h.node w = some n →
      ((∀ m, n = Val.map m → mapIndex (h.maps.getD m []) key = Val.nil →
          Get h w key = some (h, NullBrowser)) ∧
        ((∀ m, n ≠ Val.map m) → Get h w key = some (h, NullBrowser)))) ∧
    (∀ w n i, h.node w = some n →
      ((∀ a off N cap, n = Val.slice a off N cap →
          (i < 0 ∨ (N : Int) ≤ i ∨ h.load a (off + i.toNat) = some Val.nil) →
          Index h w i = some (h, NullBrowser)) ∧
        ((∀ a off N cap, n ≠ Val.slice a off N cap) →
          Index h w i = some (h, NullBrowser)))) ∧
    IsNull h NullBrowser = some true ∧
    (∀ w n, h.node w = some n →
      (n = Val.nil → IsNull h w = some true) ∧ (n ≠ Val.nil → IsNull h w = some false)) ∧
    (∀ steps, navigate h NullBrowser steps = some (h, NullBrowser)) := by
  refine ⟨by simp [NewJSONBrowser], ?_, ?_, by simp [IsNull, hnull], ?_,
    fun steps => navigate_NullBrowser steps h hnull⟩
  · intro w n key hw
    constructor
    · rintro m rfl hidx
      simp only [Get, hw, hidx, NewJSONBrowser, if_true]
    · intro hnm
      cases n <;> simp only [Get, hw]
      exact absurd rfl (hnm _)
  · intro w n i hw
    constructor
    · rintro a off N cap rfl hcase
      by_cases hin : 0 ≤ i ∧ i < (N : Int)
      · rcases hcase with hc | hc | hc
        · omega
        · omega
        · simp only [Index, hw, if_pos hin, hc, Option.map_some', NewJSONBrowser, if_true]
      · simp only [Index, hw, if_neg hin]
    · intro hns
      cases n <;> simp only [Index, hw]
      exact absurd rfl (hns _ _ _ _)
  · intro w n hw
    constructor
    · rintro rfl
      simp [IsNull, hw]
    · intro hne
      have hw0 : w ≠ NullBrowser := by
        rintro rfl
        rw [hnull] at hw
        exact hne (Option.some.inj hw).symm
      simp [IsNull, hw, hne, hw0]

/-- C19 on the scenario: a missing key, an index out of range and a key asked of the
list give the singleton, and the chain `Get("c").Get("b").Index(2)` ends at it. -/
theorem C19_Null_singleton_witness :
    scenarioListHeap.node NullBrowser = some Val.nil ∧
    Get scenarioListHeap 1 "c" = some (scenarioListHeap, NullBrowser) ∧
    Index scenarioListHeap 2 3 = some (scenarioListHeap, NullBrowser) ∧
    Get scenarioListHeap 2 "a" = some (scenarioListHeap, NullBrowser) ∧
    IsNull scenarioListHeap 1 = some false ∧
    navigate scenarioListHeap 1 [Step.key "c", Step.key "b", Step.idx 2] =
      some (scenarioListHeap, NullBrowser) := by
  have hC := C19_Null_singleton scenarioListHeap (by decide)
  refine ⟨by decide, (hC.2.1 1 (Val.map 0) "c" (by decide)).1 0 rfl (by decide),
    (hC.2.2.1 2 (Val.slice 0 0 3 4) 3 (by decide)).1 0 0 3 4 rfl (Or.inr (Or.inl (by decide))),
    (hC.2.1 2 (Val.slice 0 0 3 4) "a" (by decide)).2 (fun _ hc => nomatch hc),
    (hC.2.2.2.2.1 1 (Val.map 0) (by decide)).2 (fun hc => nomatch hc), ?_⟩
  have hstep : Get scenarioListHeap 1 "c" = some (scenarioListHeap, NullBrowser) :=
    (hC.2.1 1 (Val.map 0) "c" (by decide)).1 0 rfl (by decide)
  show (Get scenarioListHeap 1 "c").bind (fun r => navigate r.1 r.2 [Step.key "b", Step.idx 2])
    = _
  rw [hstep]
  exact hC.2.2.2.2.2 _

end JsonBrowser
